import Mathlib

/-!
Verification of the batting-lineup simulator.

The Go source is shallowly embedded: float64 arithmetic is modelled by ℚ,
the random sources (the per-game source and the package-level source) by an
explicit stream of uniform draws (a function ℕ → ℚ with a cursor), and the
callback-based generators by functions that return the list of emitted
values (resp. the trace of callback invocations).
-/

/-- Outcome constant, from batting/types.go. -/
def HIT_SINGLE : String := "single"

/-- Outcome constant, from batting/types.go. -/
def HIT_DOUBLE : String := "double"

/-- Outcome constant, from batting/types.go. -/
def HIT_TRIPLE : String := "triple"

/-- Outcome constant, from batting/types.go. -/
def HIT_HOMERUN : String := "home_run"

/-- Outcome constant, from batting/types.go. -/
def HIT_BY_PITCH_WALK : String := "walk_hbp"

/-- Outcome constant, from batting/types.go. -/
def HIT_OUT : String := "out"

/-- A deterministic stream of uniform draws: the values produced by a seeded
random source, together with the position of the next draw.  Each call to
the source's Float64 reads the value at the cursor and advances it. -/
structure Rng where
  f : ℕ → ℚ
  idx : ℕ

/-- One draw from the stream (models a call to Float64 on the source). -/
def Rng.next (r : Rng) : ℚ × Rng := (r.f r.idx, ⟨r.f, r.idx + 1⟩)

/-- Stats, from batting/types.go. -/
structure Stats where
  AVG : ℚ
  OBP : ℚ
  SLUG : ℚ
deriving DecidableEq

/-- Player, from batting/types.go. -/
structure Player where
  FirstName : String
  LastName : String
  LHP : Stats
  RHP : Stats
deriving DecidableEq

/-- Clamp of t to [1.10, 2.10], from hitType (types.go lines 259-265):
the two sequential if-assignments on t. -/
def clampT (x : ℚ) : ℚ :=
  let a := if x < 1.10 then 1.10 else x
  if a > 2.10 then 2.10 else a

/-- Triple probability from t (types.go lines 268-271). -/
def p3Of (t : ℚ) : ℚ := if t > 1.70 then 0.02 else 0.015

/-- Double probability from t (types.go lines 274-280): base value then the
two sequential clamp if-assignments. -/
def p2Of (t : ℚ) : ℚ :=
  let v := 0.19 + 0.20 * (t - 1.55)
  let w := if v < 0.12 then 0.12 else v
  if w > 0.26 then 0.26 else w

/-- Provisional home-run probability from t, p2, p3 (types.go lines 284-292). -/
def pHROf (t p2 p3 : ℚ) : ℚ :=
  let rem := t - (1 + p2 + 2 * p3)
  let v := rem / 3
  let w := if v < 0.03 then 0.03 else v
  if w > 0.12 then 0.12 else w

/-- The singles-floor redistribution (types.go lines 297-330), entered when
pS < 0.55: reduce pHR first, then p2, then recompute pS floored at 0.
Returns the final (pS, p2, p3, pHR). -/
def redistribute (p2 p3 pHR pS : ℚ) : ℚ × ℚ × ℚ × ℚ :=
  let deficit := 0.55 - pS
  let m0 := pHR - 0.03
  let maxHRReduce := if m0 < 0 then 0 else m0
  let pHR1 := if deficit ≤ maxHRReduce then pHR - deficit else pHR - maxHRReduce
  let deficit1 := if deficit ≤ maxHRReduce then 0 else deficit - maxHRReduce
  let p21 :=
    if deficit1 > 0 then
      let m1 := p2 - 0.12
      let max2BReduce := if m1 < 0 then 0 else m1
      if deficit1 ≤ max2BReduce then p2 - deficit1 else p2 - max2BReduce
    else p2
  let pS1 := 1 - (p21 + p3 + pHR1)
  let pS2 := if pS1 < 0 then 0 else pS1
  (pS2, p21, p3, pHR1)

/-- The four hit probabilities (pS, p2, p3, pHR) computed by hitType
(types.go lines 256-330) for non-degenerate inputs. -/
def hitProbs (avg slug : ℚ) : ℚ × ℚ × ℚ × ℚ :=
  let t := clampT (slug / avg)
  let p3 := p3Of t
  let p2 := p2Of t
  let pHR := pHROf t p2 p3
  let pS := 1 - (p2 + p3 + pHR)
  if pS < 0.55 then redistribute p2 p3 pHR pS else (pS, p2, p3, pHR)

/-- hitType, from batting/types.go lines 251-346.  The draw for the hit kind
is taken from the stream only in the non-degenerate case, exactly as in the
source (the degenerate early return happens before r.Float64()). -/
def hitType (avg slug : ℚ) (r : Rng) : String × Rng :=
  if avg ≤ 0 ∨ slug ≤ 0 then (HIT_SINGLE, r)
  else
    let q := hitProbs avg slug
    let pS := q.1
    let p2 := q.2.1
    let p3 := q.2.2.1
    let ur := r.next
    let u0 := ur.1
    if u0 < pS then (HIT_SINGLE, ur.2)
    else
      let u1 := u0 - pS
      if u1 < p2 then (HIT_DOUBLE, ur.2)
      else
        let u2 := u1 - p2
        if u2 < p3 then (HIT_TRIPLE, ur.2)
        else (HIT_HOMERUN, ur.2)

/-- PlateAppearance, from batting/types.go lines 26-44. -/
def Player.PlateAppearance (p : Player) (LRPitcher : String) (r : Rng) :
    String × Rng :=
  let s := if LRPitcher = "left" then p.LHP else p.RHP
  let ur := r.next
  let u := ur.1
  if u > s.OBP then (HIT_OUT, ur.2)
  else if u > s.AVG then (HIT_BY_PITCH_WALK, ur.2)
  else hitType s.AVG s.SLUG ur.2

/-- Modelled from the spec's words: clamp(x) to [lo, hi]. -/
def clamp (lo hi x : ℚ) : ℚ := max lo (min x hi)

/-- Modelled from the spec's words: "redistribute the deficit by first
reducing pHR down to its floor of 0.03, then reducing p2 down to its floor
of 0.12, recomputing pS (floored at 0)". -/
def redistributeSpec (p2 p3 pHR pS : ℚ) : ℚ × ℚ × ℚ × ℚ :=
  let deficit := 0.55 - pS
  let pHR2 := max 0.03 (pHR - deficit)
  let deficit2 := deficit - (pHR - pHR2)
  let p22 := max 0.12 (p2 - deficit2)
  let pS2 := max 0 (1 - (p22 + p3 + pHR2))
  (pS2, p22, p3, pHR2)

/-- Modelled from the spec's words (spec section 4.2, step 3): the four hit
probabilities with clamps written as clamp(lo,hi,·). -/
def hitProbsSpec (avg slug : ℚ) : ℚ × ℚ × ℚ × ℚ :=
  let t := clamp 1.10 2.10 (slug / avg)
  let p3 := if t > 1.70 then 0.02 else 0.015
  let p2 := clamp 0.12 0.26 (0.19 + 0.20 * (t - 1.55))
  let pHR := clamp 0.03 0.12 ((t - (1 + p2 + 2 * p3)) / 3)
  let pS := 1 - (p2 + p3 + pHR)
  if pS < 0.55 then redistributeSpec p2 p3 pHR pS
  else (pS, p2, p3, pHR)

/-- Modelled from the spec's words: classify the hit from a uniform draw u
by cumulative thresholds single/double/triple/home_run; degenerate inputs
always resolve to a single. -/
def hitTypeSpec (avg slug u : ℚ) : String :=
  if avg ≤ 0 ∨ slug ≤ 0 then HIT_SINGLE
  else
    let q := hitProbsSpec avg slug
    let pS := q.1
    let p2 := q.2.1
    let p3 := q.2.2.1
    if u < pS then HIT_SINGLE
    else if u < pS + p2 then HIT_DOUBLE
    else if u < pS + p2 + p3 then HIT_TRIPLE
    else HIT_HOMERUN

/-- The two sequential clamp if-assignments equal the spec's clamp. -/
theorem seq_clamp (lo hi x : ℚ) (h : lo ≤ hi) :
    (if (if x < lo then lo else x) > hi then hi
     else (if x < lo then lo else x)) = clamp lo hi x := by
  unfold clamp
  rcases lt_or_le x lo with h1 | h1
  · rw [if_pos h1, if_neg (not_lt.2 h), min_def, max_def]
    split_ifs <;> linarith
  · rw [if_neg (not_lt.2 h1), min_def, max_def]
    split_ifs <;> linarith

theorem clampT_eq (x : ℚ) : clampT x = clamp 1.10 2.10 x :=
  seq_clamp 1.10 2.10 x (by norm_num)

theorem p2Of_eq (t : ℚ) : p2Of t = clamp 0.12 0.26 (0.19 + 0.20 * (t - 1.55)) :=
  seq_clamp 0.12 0.26 _ (by norm_num)

theorem pHROf_eq (t p2 p3 : ℚ) :
    pHROf t p2 p3 = clamp 0.03 0.12 ((t - (1 + p2 + 2 * p3)) / 3) :=
  seq_clamp 0.03 0.12 _ (by norm_num)

theorem clamp_bounds (lo hi x : ℚ) (h : lo ≤ hi) :
    lo ≤ clamp lo hi x ∧ clamp lo hi x ≤ hi :=
  ⟨le_max_left _ _, max_le h (min_le_right _ _)⟩

/-- The source's in-place redistribution equals the spec's description,
given the clamp bounds established just before it runs. -/
theorem redistribute_eq (p2 p3 pHR pS : ℚ)
    (h2lo : 0.12 ≤ p2) (h2hi : p2 ≤ 0.26) (h3lo : 0 ≤ p3) (h3hi : p3 ≤ 0.02)
    (hHlo : 0.03 ≤ pHR) (hHhi : pHR ≤ 0.12) (hS : pS < 0.55) :
    redistribute p2 p3 pHR pS = redistributeSpec p2 p3 pHR pS := by
  unfold redistribute redistributeSpec
  dsimp only
  have hd : (0:ℚ) < 0.55 - pS := by linarith
  rw [if_neg (show ¬ pHR - 0.03 < 0 by linarith)]
  rcases le_or_lt (0.55 - pS) (pHR - 0.03) with hA | hA
  · rw [if_pos hA, if_pos hA,
      max_eq_right (show (0.03:ℚ) ≤ pHR - (0.55 - pS) by linarith),
      if_neg (show ¬ (0:ℚ) > 0 by norm_num)]
    have e1 : 0.55 - pS - (pHR - (pHR - (0.55 - pS))) = 0 := by ring
    rw [e1, sub_zero, max_eq_right h2lo,
      max_eq_right (show (0:ℚ) ≤ 1 - (p2 + p3 + (pHR - (0.55 - pS))) by linarith),
      if_neg (show ¬ 1 - (p2 + p3 + (pHR - (0.55 - pS))) < 0 by linarith)]
  · rw [if_neg (not_le.2 hA), if_neg (not_le.2 hA),
      max_eq_left (show pHR - (0.55 - pS) ≤ 0.03 by linarith)]
    have e1 : pHR - (pHR - 0.03) = (0.03:ℚ) := by ring
    have e2 : (0.55:ℚ) - pS - (pHR - 0.03) = 0.55 - pS - (pHR - 0.03) := rfl
    rw [if_pos (show (0.55:ℚ) - pS - (pHR - 0.03) > 0 by linarith),
      if_neg (show ¬ p2 - 0.12 < 0 by linarith), e1]
    rcases le_or_lt (0.55 - pS - (pHR - 0.03)) (p2 - 0.12) with hB | hB
    · rw [if_pos hB,
        max_eq_right (show (0.12:ℚ) ≤ p2 - (0.55 - pS - (pHR - 0.03)) by linarith),
        max_eq_right (show (0:ℚ) ≤
          1 - (p2 - (0.55 - pS - (pHR - 0.03)) + p3 + 0.03) by linarith),
        if_neg (show ¬
          1 - (p2 - (0.55 - pS - (pHR - 0.03)) + p3 + 0.03) < 0 by linarith)]
    · rw [if_neg (not_le.2 hB),
        max_eq_left (show p2 - (0.55 - pS - (pHR - 0.03)) ≤ 0.12 by linarith)]
      have e3 : p2 - (p2 - 0.12) = (0.12:ℚ) := by ring
      rw [e3,
        max_eq_right (show (0:ℚ) ≤ 1 - (0.12 + p3 + 0.03) by linarith),
        if_neg (show ¬ 1 - (0.12 + p3 + 0.03) < 0 by linarith)]

/-- The probability computation of hitType coincides with the spec's
clamp-based description, on all inputs. -/
theorem hitProbs_eq_spec (avg slug : ℚ) : hitProbs avg slug = hitProbsSpec avg slug := by
  unfold hitProbs hitProbsSpec
  dsimp only
  simp only [clampT_eq, p2Of_eq, pHROf_eq, p3Of]
  split_ifs <;>
    first
    | rfl
    | exact redistribute_eq _ _ _ _
        (clamp_bounds _ _ _ (by norm_num)).1 (clamp_bounds _ _ _ (by norm_num)).2
        (by norm_num) (by norm_num)
        (clamp_bounds _ _ _ (by norm_num)).1 (clamp_bounds _ _ _ (by norm_num)).2
        (by assumption)

/-- Claim C1: the hit-type classifier computes t = SLUG/AVG clamped to
[1.10, 2.10], the probabilities p3 (0.015, or 0.02 when t > 1.70),
p2 = clamp(0.19 + 0.20(t - 1.55), 0.12, 0.26),
pHR = clamp((t - (1 + p2 + 2 p3))/3, 0.03, 0.12), pS = 1 - (p2 + p3 + pHR),
redistributes towards the 0.55 singles floor by reducing pHR to 0.03 and
then p2 to 0.12 (pS recomputed, floored at 0), and selects
single/double/triple/home_run by cumulative thresholds from the next
uniform draw; degenerate inputs (AVG ≤ 0 or SLUG ≤ 0) always give a
single.  Stated as: hitType agrees everywhere with the model written from
the spec's words. -/
theorem hitType_follows_spec_model (avg slug : ℚ) (r : Rng) :
    (hitType avg slug r).1 = hitTypeSpec avg slug (r.f r.idx) := by
  unfold hitType hitTypeSpec
  by_cases hdeg : avg ≤ 0 ∨ slug ≤ 0
  · rw [if_pos hdeg, if_pos hdeg]
  · rw [if_neg hdeg, if_neg hdeg]
    simp only [hitProbs_eq_spec, Rng.next]
    split_ifs <;> first | rfl | (exfalso; linarith)

/-- Claim C7: for valid hit-classification inputs (AVG > 0 and SLUG > 0) the
four derived probabilities sum to exactly 1 after clamping/redistribution,
and each lies in [0, 1].  (In ℚ the sum is exact.) -/
theorem hitProbs_valid_distribution (avg slug : ℚ)
    (havg : 0 < avg) (hslug : 0 < slug) :
    (hitProbs avg slug).1 + (hitProbs avg slug).2.1 +
      (hitProbs avg slug).2.2.1 + (hitProbs avg slug).2.2.2 = 1 ∧
    0 ≤ (hitProbs avg slug).1 ∧ (hitProbs avg slug).1 ≤ 1 ∧
    0 ≤ (hitProbs avg slug).2.1 ∧ (hitProbs avg slug).2.1 ≤ 1 ∧
    0 ≤ (hitProbs avg slug).2.2.1 ∧ (hitProbs avg slug).2.2.1 ≤ 1 ∧
    0 ≤ (hitProbs avg slug).2.2.2 ∧ (hitProbs avg slug).2.2.2 ≤ 1 := by
  have e := hitProbs_eq_spec avg slug
  unfold hitProbsSpec at e
  dsimp only at e
  set t := clamp 1.10 2.10 (slug / avg) with ht
  set q3 := if t > 1.70 then (0.02:ℚ) else 0.015 with h3
  set q2 := clamp 0.12 0.26 (0.19 + 0.20 * (t - 1.55)) with hq2
  set qH := clamp 0.03 0.12 ((t - (1 + q2 + 2 * q3)) / 3) with hqH
  have h2b := clamp_bounds 0.12 0.26 (0.19 + 0.20 * (t - 1.55)) (by norm_num)
  rw [← hq2] at h2b
  have h3b : 0 ≤ q3 ∧ q3 ≤ 0.02 := by
    rw [h3]; constructor <;> (split_ifs <;> norm_num)
  have hHb := clamp_bounds 0.03 0.12 ((t - (1 + q2 + 2 * q3)) / 3) (by norm_num)
  rw [← hqH] at hHb
  rw [if_neg (by push_neg; linarith [h2b.2, h3b.2, hHb.2])] at e
  rw [e]
  dsimp only
  refine ⟨by ring, by linarith [h2b.1, h3b.1, hHb.1], by linarith [h2b.1, h3b.1, hHb.1],
    by linarith [h2b.1], by linarith [h2b.2], by linarith [h3b.1], by linarith [h3b.2],
    by linarith [hHb.1], by linarith [hHb.2]⟩

theorem hitProbs_valid_distribution_witness :
    (0:ℚ) < 0.3 ∧
    ((hitProbs 0.3 0.3).1 + (hitProbs 0.3 0.3).2.1 +
      (hitProbs 0.3 0.3).2.2.1 + (hitProbs 0.3 0.3).2.2.2 = 1 ∧
    0 ≤ (hitProbs 0.3 0.3).1 ∧ (hitProbs 0.3 0.3).1 ≤ 1 ∧
    0 ≤ (hitProbs 0.3 0.3).2.1 ∧ (hitProbs 0.3 0.3).2.1 ≤ 1 ∧
    0 ≤ (hitProbs 0.3 0.3).2.2.1 ∧ (hitProbs 0.3 0.3).2.2.1 ≤ 1 ∧
    0 ≤ (hitProbs 0.3 0.3).2.2.2 ∧ (hitProbs 0.3 0.3).2.2.2 ≤ 1) :=
  ⟨by norm_num, hitProbs_valid_distribution 0.3 0.3 (by norm_num) (by norm_num)⟩

/-- A sample player used to instantiate witnesses on concrete inputs. -/
def samplePlayer : Player :=
  ⟨"Test", "Batter", ⟨0.25, 0.35, 0.40⟩, ⟨0.26, 0.36, 0.41⟩⟩

/-- Claim C2: PlateAppearance selects the LHP split exactly when the pitcher
hand is "left" (RHP otherwise), and with the drawn uniform u it returns out
when u > OBP, walk/HBP when u ≤ OBP and u > AVG, and otherwise classifies a
hit with hitType on the selected split's AVG and SLUG. -/
theorem plateAppearance_cases (p : Player) (hand : String) (r : Rng) :
    (r.f r.idx > (if hand = "left" then p.LHP else p.RHP).OBP →
        p.PlateAppearance hand r = (HIT_OUT, r.next.2)) ∧
    (r.f r.idx ≤ (if hand = "left" then p.LHP else p.RHP).OBP →
      r.f r.idx > (if hand = "left" then p.LHP else p.RHP).AVG →
        p.PlateAppearance hand r = (HIT_BY_PITCH_WALK, r.next.2)) ∧
    (r.f r.idx ≤ (if hand = "left" then p.LHP else p.RHP).OBP →
      r.f r.idx ≤ (if hand = "left" then p.LHP else p.RHP).AVG →
        p.PlateAppearance hand r =
          hitType (if hand = "left" then p.LHP else p.RHP).AVG
            (if hand = "left" then p.LHP else p.RHP).SLUG r.next.2) := by
  unfold Player.PlateAppearance
  simp only [Rng.next]
  refine ⟨fun h1 => ?_, fun h1 h2 => ?_, fun h1 h2 => ?_⟩
  · rw [if_pos h1]
  · rw [if_neg (not_lt.2 h1), if_pos h2]
  · rw [if_neg (not_lt.2 h1), if_neg (not_lt.2 h2)]

theorem plateAppearance_cases_witness :
    samplePlayer.PlateAppearance "right" ⟨fun _ => 0.9, 0⟩ =
      (HIT_OUT, (⟨fun _ => 0.9, 0⟩ : Rng).next.2) :=
  (plateAppearance_cases samplePlayer "right" ⟨fun _ => 0.9, 0⟩).1
    (by rw [if_neg (show ¬ ("right":String) = "left" by decide)]
        norm_num [samplePlayer])

namespace baseball

/-- Field, from batting/types.go: base-occupancy slots (nil pointer = none). -/
structure Field where
  AtBat : Option Player
  FirstBase : Option Player
  SecondBase : Option Player
  ThirdBase : Option Player
deriving DecidableEq

/-- Game, from batting/types.go (Go int counters modelled by ℤ). -/
structure Game where
  Hits : ℤ
  Runs : ℤ
  LOB : ℤ
  Field : Field
  PitcherHand : String
deriving DecidableEq

/-- Field.LOB, from batting/types.go lines 59-71. -/
def Field.LOB (f : Field) : ℤ :=
  let b : ℤ := 0
  let b1 := if f.FirstBase.isSome then b + 1 else b
  let b2 := if f.SecondBase.isSome then b1 + 1 else b1
  if f.ThirdBase.isSome then b2 + 1 else b2

/-- Game.AddLOB, from batting/types.go lines 73-75. -/
def Game.AddLOB (g : Game) (lob : ℤ) : Game := { g with LOB := g.LOB + lob }

/-- currentBatterSlug, from batting/types.go lines 78-86. -/
def Game.currentBatterSlug (g : Game) : ℚ :=
  match g.Field.AtBat with
  | none => 0
  | some p => if g.PitcherHand = "left" then p.LHP.SLUG else p.RHP.SLUG

/-- probScoreFromSecondOnSingle, from batting/types.go lines 199-217. -/
def probScoreFromSecondOnSingle (slug : ℚ) : ℚ :=
  let s1 := if slug ≤ 0 then 0.400 else slug
  let s2 := if s1 < 0.350 then 0.350 else s1
  let s3 := if s2 > 0.600 then 0.600 else s2
  let t := (s3 - 0.350) / (0.600 - 0.350)
  0.38 + t * (0.72 - 0.38)

/-- probScoreFromFirstOnDouble, from batting/types.go lines 223-241. -/
def probScoreFromFirstOnDouble (slug : ℚ) : ℚ :=
  let s1 := if slug ≤ 0 then 0.400 else slug
  let s2 := if s1 < 0.350 then 0.350 else s1
  let s3 := if s2 > 0.600 then 0.600 else s2
  let t := (s3 - 0.350) / (0.600 - 0.350)
  0.32 + t * (0.62 - 0.32)

/-- The walk/HBP branch of Game.Hit (types.go lines 89-109): force advances
only, a run scores only with bases loaded, batter to first. -/
def walkStep (g : Game) : Game :=
  let ga :=
    if g.Field.FirstBase.isSome then
      let gb :=
        if g.Field.SecondBase.isSome then
          let gc :=
            if g.Field.ThirdBase.isSome then
              { g with Runs := g.Runs + 1,
                       Field := { g.Field with ThirdBase := none } }
            else g
          { gc with Field := { gc.Field with ThirdBase := gc.Field.SecondBase,
                                             SecondBase := none } }
        else g
      { gb with Field := { gb.Field with SecondBase := gb.Field.FirstBase,
                                         FirstBase := none } }
    else g
  { ga with Field := { ga.Field with FirstBase := ga.Field.AtBat, AtBat := none } }

/-- The single branch of Game.Hit (types.go lines 110-133).  The draw
deciding whether the runner on second scores is rand.Float64() at
types.go line 119, i.e. it comes from the package-global source, not from
the per-game source handed to PlateAppearance; the Rng argument here
therefore models the package-global stream, which paStep threads
separately from the per-game stream. -/
def singleStep (g : Game) (r : Rng) : Game × Rng :=
  let g0 := { g with Hits := g.Hits + 1 }
  let g1 :=
    if g0.Field.ThirdBase.isSome then
      { g0 with Runs := g0.Runs + 1, Field := { g0.Field with ThirdBase := none } }
    else g0
  let gr2 : Game × Rng :=
    if g1.Field.SecondBase.isSome then
      let p := probScoreFromSecondOnSingle g1.currentBatterSlug
      let ur := r.next
      if ur.1 < p then
        ({ g1 with Runs := g1.Runs + 1,
                   Field := { g1.Field with SecondBase := none } }, ur.2)
      else
        ({ g1 with Field := { g1.Field with ThirdBase := g1.Field.SecondBase,
                                            SecondBase := none } }, ur.2)
    else (g1, r)
  let g2 := gr2.1
  let g3 :=
    if g2.Field.FirstBase.isSome then
      { g2 with Field := { g2.Field with SecondBase := g2.Field.FirstBase,
                                         FirstBase := none } }
    else g2
  ({ g3 with Field := { g3.Field with FirstBase := g3.Field.AtBat, AtBat := none } },
   gr2.2)

/-- The double branch of Game.Hit (types.go lines 134-160).  As in the
single branch, the draw deciding whether the runner on first scores is
rand.Float64() at types.go line 149, from the package-global source: the
Rng argument models the package-global stream. -/
def doubleStep (g : Game) (r : Rng) : Game × Rng :=
  let g0 := { g with Hits := g.Hits + 1 }
  let g1 :=
    if g0.Field.ThirdBase.isSome then
      { g0 with Runs := g0.Runs + 1, Field := { g0.Field with ThirdBase := none } }
    else g0
  let g2 :=
    if g1.Field.SecondBase.isSome then
      { g1 with Runs := g1.Runs + 1, Field := { g1.Field with SecondBase := none } }
    else g1
  let gr3 : Game × Rng :=
    if g2.Field.FirstBase.isSome then
      let p := probScoreFromFirstOnDouble g2.currentBatterSlug
      let ur := r.next
      if ur.1 < p then
        ({ g2 with Runs := g2.Runs + 1,
                   Field := { g2.Field with FirstBase := none } }, ur.2)
      else
        ({ g2 with Field := { g2.Field with ThirdBase := g2.Field.FirstBase,
                                            FirstBase := none } }, ur.2)
    else (g2, r)
  let g3 := gr3.1
  ({ g3 with Field := { g3.Field with SecondBase := g3.Field.AtBat, AtBat := none } },
   gr3.2)

/-- The triple branch of Game.Hit (types.go lines 161-177). -/
def tripleStep (g : Game) : Game :=
  let g1 :=
    { g with Hits := g.Hits + 1 }
  let g2 :=
    if g1.Field.ThirdBase.isSome then
      { g1 with Runs := g1.Runs + 1, Field := { g1.Field with ThirdBase := none } }
    else g1
  let g3 :=
    if g2.Field.SecondBase.isSome then
      { g2 with Runs := g2.Runs + 1, Field := { g2.Field with SecondBase := none } }
    else g2
  let g4 :=
    if g3.Field.FirstBase.isSome then
      { g3 with Runs := g3.Runs + 1, Field := { g3.Field with FirstBase := none } }
    else g3
  { g4 with Field := { g4.Field with ThirdBase := g4.Field.AtBat, AtBat := none } }

/-- The home-run branch of Game.Hit (types.go lines 178-194). -/
def homerunStep (g : Game) : Game :=
  let g1 :=
    { g with Hits := g.Hits + 1 }
  let g2 :=
    if g1.Field.ThirdBase.isSome then
      { g1 with Runs := g1.Runs + 1, Field := { g1.Field with ThirdBase := none } }
    else g1
  let g3 :=
    if g2.Field.SecondBase.isSome then
      { g2 with Runs := g2.Runs + 1, Field := { g2.Field with SecondBase := none } }
    else g2
  let g4 :=
    if g3.Field.FirstBase.isSome then
      { g3 with Runs := g3.Runs + 1, Field := { g3.Field with FirstBase := none } }
    else g3
  { g4 with Runs := g4.Runs + 1, Field := { g4.Field with AtBat := none } }

/-- Game.Hit, from batting/types.go lines 88-195: five sequential
string-equality ifs (at most one fires; an unknown hit type is a no-op).
The Go method takes no random source: its runner-scoring draws call the
package-global rand.Float64() (types.go lines 119 and 149), so the Rng
argument here models that package-global stream. -/
def Game.Hit (g : Game) (hittype : String) (r : Rng) : Game × Rng :=
  let g1 := if hittype = HIT_BY_PITCH_WALK then walkStep g else g
  let gr2 := if hittype = HIT_SINGLE then singleStep g1 r else (g1, r)
  let gr3 := if hittype = HIT_DOUBLE then doubleStep gr2.1 gr2.2 else gr2
  let g4 := if hittype = HIT_TRIPLE then tripleStep gr3.1 else gr3.1
  let g5 := if hittype = HIT_HOMERUN then homerunStep g4 else g4
  (g5, gr3.2)

/-- The out branch of main's plate-appearance switch (main.go lines
114-121): increment outs; with a runner on first and fewer than two outs
(after the increment) a double-play check fires on a draw below 0.11,
adding a second out and clearing first base. -/
def outStep (g : Game) (outs : ℤ) (r : Rng) : Game × ℤ × Rng :=
  let outs1 := outs + 1
  if g.Field.FirstBase.isSome ∧ outs1 < 2 then
    let ur := r.next
    if ur.1 < 0.11 then
      ({ g with Field := { g.Field with FirstBase := none } }, outs1 + 1, ur.2)
    else (g, outs1, ur.2)
  else (g, outs1, r)

/-- One plate appearance of main's inner loop (main.go lines 111-137):
set the at-bat pointer, sample the outcome, dispatch (out branch or
Game.Hit), clear the at-bat pointer, advance the batting index mod 9.
Two random sources are threaded, exactly as in the Go code: r models the
worker's per-game source (used by PlateAppearance and by the double-play
check), grand models the package-global source consumed only by the
runner-scoring draws inside Game.Hit (types.go lines 119 and 149). -/
def paStep (lineup : Fin 9 → Player) (g : Game) (bi : Fin 9) (outs : ℤ)
    (r grand : Rng) : Game × Fin 9 × ℤ × Rng × Rng :=
  let g1 := { g with Field := { g.Field with AtBat := some (lineup bi) } }
  let pr := (lineup bi).PlateAppearance "right" r
  let gor : Game × ℤ × Rng × Rng :=
    if pr.1 = HIT_OUT then
      let os := outStep g1 outs pr.2
      (os.1, os.2.1, os.2.2, grand)
    else
      let hr := g1.Hit pr.1 grand
      (hr.1, outs, pr.2, hr.2)
  let g2 := { gor.1 with Field := { gor.1.Field with AtBat := none } }
  (g2, bi + 1, gor.2.1, gor.2.2.1, gor.2.2.2)

/-- The while-loop of one half-inning (main.go: for outs < 3), with fuel
for termination; none models an execution that would still be inside the
loop after the given number of plate appearances. -/
def inningLoop (lineup : Fin 9 → Player) (fuel : ℕ) (g : Game) (bi : Fin 9)
    (outs : ℤ) (r grand : Rng) : Option (Game × Fin 9 × Rng × Rng) :=
  if outs < 3 then
    match fuel with
    | 0 => none
    | fuel' + 1 =>
      let st := paStep lineup g bi outs r grand
      inningLoop lineup fuel' st.1 st.2.1 st.2.2.1 st.2.2.2.1 st.2.2.2.2
  else some (g, bi, r, grand)

/-- End of an inning (main.go lines 139-141): record the bases left
occupied into the game total and clear the bases. -/
def inningEnd (g : Game) : Game :=
  let lob := g.Field.LOB
  let g1 := g.AddLOB lob
  { g1 with Field := { g1.Field with FirstBase := none, SecondBase := none,
                                     ThirdBase := none } }

/-- The nine-inning loop of one simulated game (main.go lines 108-142),
parameterised by the number of innings still to play. -/
def gameLoop (lineup : Fin 9 → Player) (fuel : ℕ) :
    ℕ → Game → Fin 9 → Rng → Rng → Option (Game × Fin 9 × Rng × Rng)
  | 0, g, bi, r, grand => some (g, bi, r, grand)
  | n + 1, g, bi, r, grand =>
    (inningLoop lineup fuel g bi 0 r grand).bind fun st =>
      gameLoop lineup fuel n (inningEnd st.1) st.2.1 st.2.2.1 st.2.2.2

/-- The zero value of Game (game := baseball.Game{} in main.go). -/
def initGame : Game :=
  { Hits := 0, Runs := 0, LOB := 0,
    Field := ⟨none, none, none, none⟩, PitcherHand := "" }

/-- One whole simulated game for a lineup (main.go lines 106-143):
nine innings from the zero Game, batter index 0, consuming the per-game
stream r and the package-global stream grand. -/
def runGame (lineup : Fin 9 → Player) (fuel : ℕ) (r grand : Rng) :
    Option Game :=
  (gameLoop lineup fuel 9 initGame 0 r grand).map fun st => st.1
/-- Game.Hit dispatches the walk/HBP constant to the walk branch. -/
theorem Hit_walk_eq (g : Game) (r : Rng) :
    g.Hit HIT_BY_PITCH_WALK r = (walkStep g, r) := by
  unfold Game.Hit
  dsimp only
  rw [if_pos (rfl : HIT_BY_PITCH_WALK = HIT_BY_PITCH_WALK),
    if_neg (show ¬ HIT_BY_PITCH_WALK = HIT_SINGLE by decide),
    if_neg (show ¬ HIT_BY_PITCH_WALK = HIT_DOUBLE by decide),
    if_neg (show ¬ HIT_BY_PITCH_WALK = HIT_TRIPLE by decide),
    if_neg (show ¬ HIT_BY_PITCH_WALK = HIT_HOMERUN by decide)]

/-- Game.Hit dispatches the single constant to the single branch. -/
theorem Hit_single_eq (g : Game) (r : Rng) :
    g.Hit HIT_SINGLE r = singleStep g r := by
  unfold Game.Hit
  dsimp only
  rw [if_neg (show ¬ HIT_SINGLE = HIT_BY_PITCH_WALK by decide),
    if_pos (rfl : HIT_SINGLE = HIT_SINGLE),
    if_neg (show ¬ HIT_SINGLE = HIT_DOUBLE by decide),
    if_neg (show ¬ HIT_SINGLE = HIT_TRIPLE by decide),
    if_neg (show ¬ HIT_SINGLE = HIT_HOMERUN by decide)]

/-- Game.Hit dispatches the double constant to the double branch. -/
theorem Hit_double_eq (g : Game) (r : Rng) :
    g.Hit HIT_DOUBLE r = doubleStep g r := by
  unfold Game.Hit
  dsimp only
  rw [if_neg (show ¬ HIT_DOUBLE = HIT_BY_PITCH_WALK by decide),
    if_neg (show ¬ HIT_DOUBLE = HIT_SINGLE by decide),
    if_pos (rfl : HIT_DOUBLE = HIT_DOUBLE),
    if_neg (show ¬ HIT_DOUBLE = HIT_TRIPLE by decide),
    if_neg (show ¬ HIT_DOUBLE = HIT_HOMERUN by decide)]

/-- Game.Hit dispatches the triple constant to the triple branch. -/
theorem Hit_triple_eq (g : Game) (r : Rng) :
    g.Hit HIT_TRIPLE r = (tripleStep g, r) := by
  unfold Game.Hit
  dsimp only
  rw [if_neg (show ¬ HIT_TRIPLE = HIT_BY_PITCH_WALK by decide),
    if_neg (show ¬ HIT_TRIPLE = HIT_SINGLE by decide),
    if_neg (show ¬ HIT_TRIPLE = HIT_DOUBLE by decide),
    if_pos (rfl : HIT_TRIPLE = HIT_TRIPLE),
    if_neg (show ¬ HIT_TRIPLE = HIT_HOMERUN by decide)]

/-- Game.Hit dispatches the home-run constant to the home-run branch. -/
theorem Hit_homerun_eq (g : Game) (r : Rng) :
    g.Hit HIT_HOMERUN r = (homerunStep g, r) := by
  unfold Game.Hit
  dsimp only
  rw [if_neg (show ¬ HIT_HOMERUN = HIT_BY_PITCH_WALK by decide),
    if_neg (show ¬ HIT_HOMERUN = HIT_SINGLE by decide),
    if_neg (show ¬ HIT_HOMERUN = HIT_DOUBLE by decide),
    if_neg (show ¬ HIT_HOMERUN = HIT_TRIPLE by decide),
    if_pos (rfl : HIT_HOMERUN = HIT_HOMERUN)]

/-- Game.Hit on any unrecognized string is a no-op on game and stream. -/
theorem Hit_other_eq (g : Game) (ht : String) (r : Rng)
    (h1 : ht ≠ HIT_BY_PITCH_WALK) (h2 : ht ≠ HIT_SINGLE) (h3 : ht ≠ HIT_DOUBLE)
    (h4 : ht ≠ HIT_TRIPLE) (h5 : ht ≠ HIT_HOMERUN) :
    g.Hit ht r = (g, r) := by
  unfold Game.Hit
  dsimp only
  rw [if_neg h1, if_neg h2, if_neg h3, if_neg h4, if_neg h5]
/-- Claim C4: a walk/HBP advances runners only when forced: with first
occupied the runner on first moves to second, forcing second to third only
when second was also occupied, and a run scores exactly when the bases were
loaded; unforced runners stay; the batter always ends on first; hits and
the stream are untouched.  With bases loaded this gives exactly one run and
leaves the bases loaded. -/
theorem walk_force_advances (g : Game) (r : Rng) :
    (g.Hit HIT_BY_PITCH_WALK r).1.Runs =
      g.Runs + (if g.Field.FirstBase.isSome ∧ g.Field.SecondBase.isSome ∧
                   g.Field.ThirdBase.isSome then 1 else 0) ∧
    (g.Hit HIT_BY_PITCH_WALK r).1.Field.FirstBase = g.Field.AtBat ∧
    (g.Hit HIT_BY_PITCH_WALK r).1.Field.SecondBase =
      (if g.Field.FirstBase.isSome then g.Field.FirstBase else g.Field.SecondBase) ∧
    (g.Hit HIT_BY_PITCH_WALK r).1.Field.ThirdBase =
      (if g.Field.FirstBase.isSome ∧ g.Field.SecondBase.isSome then
        g.Field.SecondBase
       else g.Field.ThirdBase) ∧
    (g.Hit HIT_BY_PITCH_WALK r).1.Hits = g.Hits ∧
    (g.Hit HIT_BY_PITCH_WALK r).2 = r := by
  rw [Hit_walk_eq]
  unfold walkStep
  dsimp only
  rcases hF : g.Field.FirstBase with _ | pF <;>
    rcases hS : g.Field.SecondBase with _ | pS <;>
      rcases hT : g.Field.ThirdBase with _ | pT <;>
        simp [hF, hS, hT]

/-- The single branch records exactly one hit. -/
theorem singleStep_hits (g : Game) (r : Rng) :
    (singleStep g r).1.Hits = g.Hits + 1 := by
  unfold singleStep
  dsimp only
  split_ifs <;> rfl

/-- The double branch records exactly one hit. -/
theorem doubleStep_hits (g : Game) (r : Rng) :
    (doubleStep g r).1.Hits = g.Hits + 1 := by
  unfold doubleStep
  dsimp only
  split_ifs <;> rfl

/-- The triple branch records exactly one hit. -/
theorem tripleStep_hits (g : Game) : (tripleStep g).Hits = g.Hits + 1 := by
  unfold tripleStep
  dsimp only
  split_ifs <;> rfl

/-- The home-run branch records exactly one hit. -/
theorem homerunStep_hits (g : Game) : (homerunStep g).Hits = g.Hits + 1 := by
  unfold homerunStep
  dsimp only
  split_ifs <;> rfl

/-- The walk branch records no hit. -/
theorem walkStep_hits (g : Game) : (walkStep g).Hits = g.Hits := by
  unfold walkStep
  dsimp only
  split_ifs <;> rfl

/-- Claim C10: Game.Hit increments Hits by exactly one for each of the four
hit outcomes, leaves Hits unchanged for every other argument (in particular
a walk/HBP is never counted as a hit), and a call with an unrecognized
outcome string leaves game and stream entirely unchanged. -/
theorem hit_counts_hits (g : Game) (ht : String) (r : Rng) :
    ((ht = HIT_SINGLE ∨ ht = HIT_DOUBLE ∨ ht = HIT_TRIPLE ∨ ht = HIT_HOMERUN) →
      (g.Hit ht r).1.Hits = g.Hits + 1) ∧
    ((ht ≠ HIT_SINGLE ∧ ht ≠ HIT_DOUBLE ∧ ht ≠ HIT_TRIPLE ∧ ht ≠ HIT_HOMERUN) →
      (g.Hit ht r).1.Hits = g.Hits) ∧
    ((ht ≠ HIT_BY_PITCH_WALK ∧ ht ≠ HIT_SINGLE ∧ ht ≠ HIT_DOUBLE ∧
      ht ≠ HIT_TRIPLE ∧ ht ≠ HIT_HOMERUN) → g.Hit ht r = (g, r)) := by
  refine ⟨?_, ?_, ?_⟩
  · rintro (rfl | rfl | rfl | rfl)
    · rw [Hit_single_eq]; exact singleStep_hits g r
    · rw [Hit_double_eq]; exact doubleStep_hits g r
    · rw [Hit_triple_eq]; exact tripleStep_hits g
    · rw [Hit_homerun_eq]; exact homerunStep_hits g
  · rintro ⟨h1, h2, h3, h4⟩
    by_cases hw : ht = HIT_BY_PITCH_WALK
    · subst hw; rw [Hit_walk_eq]; exact walkStep_hits g
    · rw [Hit_other_eq g ht r hw h1 h2 h3 h4]
  · rintro ⟨h0, h1, h2, h3, h4⟩
    exact Hit_other_eq g ht r h0 h1 h2 h3 h4

theorem hit_counts_hits_witness :
    initGame.Hit HIT_OUT ⟨fun _ => 0, 0⟩ = (initGame, ⟨fun _ => 0, 0⟩) :=
  (hit_counts_hits initGame HIT_OUT ⟨fun _ => 0, 0⟩).2.2
    ⟨by decide, by decide, by decide, by decide, by decide⟩
/-- Claim C6: an out increments the outs count by one; when first base is
occupied and the incremented count is still below 2, a double-play check
fires on the next draw with threshold 0.11: on success a second out is
added and first base is cleared; Runs, Hits and the other bases are never
touched by the out branch. -/
theorem out_double_play (g : Game) (outs : ℤ) (r : Rng) :
    ((g.Field.FirstBase.isSome ∧ outs + 1 < 2) →
       (r.f r.idx < 0.11 →
          outStep g outs r =
            ({ g with Field := { g.Field with FirstBase := none } },
             outs + 1 + 1, r.next.2)) ∧
       (¬ r.f r.idx < 0.11 → outStep g outs r = (g, outs + 1, r.next.2))) ∧
    (¬ (g.Field.FirstBase.isSome ∧ outs + 1 < 2) →
       outStep g outs r = (g, outs + 1, r)) ∧
    (outStep g outs r).1.Runs = g.Runs ∧
    (outStep g outs r).1.Hits = g.Hits ∧
    (outStep g outs r).1.Field.SecondBase = g.Field.SecondBase ∧
    (outStep g outs r).1.Field.ThirdBase = g.Field.ThirdBase := by
  unfold outStep
  simp only [Rng.next]
  refine ⟨fun hc => ⟨fun hu => ?_, fun hu => ?_⟩, fun hc => ?_, ?_, ?_, ?_, ?_⟩
  · rw [if_pos hc, if_pos hu]
  · rw [if_pos hc, if_neg hu]
  · rw [if_neg hc]
  all_goals split_ifs <;> rfl

theorem out_double_play_witness :
    baseball.outStep
        ⟨0, 0, 0, ⟨none, some samplePlayer, none, none⟩, ""⟩ 0 ⟨fun _ => 0, 0⟩ =
      ({ (⟨0, 0, 0, ⟨none, some samplePlayer, none, none⟩, ""⟩ : Game) with
          Field := { (⟨none, some samplePlayer, none, none⟩ : Field) with
            FirstBase := none } },
       0 + 1 + 1, (⟨fun _ => 0, 0⟩ : Rng).next.2) :=
  ((out_double_play ⟨0, 0, 0, ⟨none, some samplePlayer, none, none⟩, ""⟩ 0
      ⟨fun _ => 0, 0⟩).1 ⟨rfl, by norm_num⟩).1 (by norm_num)

/-- A constant lineup used to instantiate witnesses. -/
def sampleLineup : Fin 9 → Player := fun _ => samplePlayer

/-- A batter with zero AVG: every hit goes through hitType's degenerate
branch (always a single, consuming no further per-game draw), while
OBP = SLUG = 1/2 keep outs and the runner-scoring draws in play. -/
def cxPlayer : Player :=
  { FirstName := "cx", LastName := "p",
    LHP := { AVG := 0, OBP := 1/2, SLUG := 1/2 },
    RHP := { AVG := 0, OBP := 1/2, SLUG := 1/2 } }

/-- The all-cxPlayer lineup. -/
def cxLineup : Fin 9 → Player := fun _ => cxPlayer

/-- A per-game draw sequence: three low draws (three singles), then high
draws (outs) forever. -/
def cxF : ℕ → ℚ := fun i => if i < 3 then 0 else 1

theorem cx_pa_hit (i : ℕ) (h : i < 3) :
    cxPlayer.PlateAppearance "right" ⟨cxF, i⟩ = (HIT_SINGLE, ⟨cxF, i + 1⟩) := by
  have hv : cxF i = 0 := by unfold cxF; rw [if_pos h]
  norm_num [Player.PlateAppearance, hitType, Rng.next, cxPlayer, hv]

theorem cx_pa_out (i : ℕ) (h : 3 ≤ i) :
    cxPlayer.PlateAppearance "right" ⟨cxF, i⟩ = (HIT_OUT, ⟨cxF, i + 1⟩) := by
  have hv : cxF i = 1 := by unfold cxF; rw [if_neg (by omega)]
  norm_num [Player.PlateAppearance, Rng.next, cxPlayer, hv]

theorem cx_pa_step_out (gh gr gl : ℤ) (gp : String) (bi : Fin 9) (outs : ℤ)
    (i : ℕ) (p : Rng) (hi : 3 ≤ i) :
    paStep cxLineup ⟨gh, gr, gl, ⟨none, none, none, none⟩, gp⟩ bi outs
        ⟨cxF, i⟩ p =
      (⟨gh, gr, gl, ⟨none, none, none, none⟩, gp⟩, bi + 1, outs + 1,
       ⟨cxF, i + 1⟩, p) := by
  simp only [paStep, cxLineup]
  rw [cx_pa_out i hi]
  norm_num [outStep]

theorem cx_pa_step_out_dp (gh gr gl : ℤ) (gp : String) (f2 f3 : Option Player)
    (bi : Fin 9) (i : ℕ) (p : Rng) (hi : 3 ≤ i) :
    paStep cxLineup ⟨gh, gr, gl, ⟨none, some cxPlayer, f2, f3⟩, gp⟩ bi 0
        ⟨cxF, i⟩ p =
      (⟨gh, gr, gl, ⟨none, some cxPlayer, f2, f3⟩, gp⟩, bi + 1, 1,
       ⟨cxF, i + 2⟩, p) := by
  have hv : cxF (i + 1) = 1 := by unfold cxF; rw [if_neg (by omega)]
  simp only [paStep, cxLineup]
  rw [cx_pa_out i hi]
  norm_num [outStep, Rng.next, hv]

theorem cx_pa_step_out_late (gh gr gl : ℤ) (gp : String)
    (f1 f2 f3 : Option Player) (bi : Fin 9) (outs : ℤ) (i : ℕ) (p : Rng)
    (hi : 3 ≤ i) (ho : 1 ≤ outs) :
    paStep cxLineup ⟨gh, gr, gl, ⟨none, f1, f2, f3⟩, gp⟩ bi outs
        ⟨cxF, i⟩ p =
      (⟨gh, gr, gl, ⟨none, f1, f2, f3⟩, gp⟩, bi + 1, outs + 1,
       ⟨cxF, i + 1⟩, p) := by
  have h2 : ¬ (outs + 1 < 2) := by omega
  simp only [paStep, cxLineup]
  rw [cx_pa_out i hi]
  norm_num [outStep, h2]

theorem cx_pa1 :
    paStep cxLineup initGame 0 0 ⟨cxF, 0⟩ ⟨fun _ => 0, 0⟩ =
      (⟨1, 0, 0, ⟨none, some cxPlayer, none, none⟩, ""⟩, 1, 0,
       ⟨cxF, 1⟩, ⟨fun _ => 0, 0⟩) := by
  simp only [paStep, cxLineup, initGame]
  rw [cx_pa_hit 0 (by norm_num)]
  norm_num [Hit_single_eq, singleStep,
    show ¬ HIT_SINGLE = HIT_OUT from by decide]

theorem cx_pa1B :
    paStep cxLineup initGame 0 0 ⟨cxF, 0⟩ ⟨fun _ => 1, 0⟩ =
      (⟨1, 0, 0, ⟨none, some cxPlayer, none, none⟩, ""⟩, 1, 0,
       ⟨cxF, 1⟩, ⟨fun _ => 1, 0⟩) := by
  simp only [paStep, cxLineup, initGame]
  rw [cx_pa_hit 0 (by norm_num)]
  norm_num [Hit_single_eq, singleStep,
    show ¬ HIT_SINGLE = HIT_OUT from by decide]

theorem cx_pa2 (p : Rng) :
    paStep cxLineup ⟨1, 0, 0, ⟨none, some cxPlayer, none, none⟩, ""⟩ 1 0
        ⟨cxF, 1⟩ p =
      (⟨2, 0, 0, ⟨none, some cxPlayer, some cxPlayer, none⟩, ""⟩, 2, 0,
       ⟨cxF, 2⟩, p) := by
  simp only [paStep, cxLineup]
  rw [cx_pa_hit 1 (by norm_num)]
  norm_num [Hit_single_eq, singleStep,
    show ¬ HIT_SINGLE = HIT_OUT from by decide]

theorem cx_pa3A :
    paStep cxLineup ⟨2, 0, 0, ⟨none, some cxPlayer, some cxPlayer, none⟩, ""⟩
        2 0 ⟨cxF, 2⟩ ⟨fun _ => 0, 0⟩ =
      (⟨3, 1, 0, ⟨none, some cxPlayer, some cxPlayer, none⟩, ""⟩, 3, 0,
       ⟨cxF, 3⟩, ⟨fun _ => 0, 1⟩) := by
  simp only [paStep, cxLineup]
  rw [cx_pa_hit 2 (by norm_num)]
  norm_num [Hit_single_eq, singleStep, probScoreFromSecondOnSingle,
    Game.currentBatterSlug, Rng.next, cxPlayer,
    show ¬ HIT_SINGLE = HIT_OUT from by decide,
    show ¬ ("" : String) = "left" from by decide]

theorem cx_pa3B :
    paStep cxLineup ⟨2, 0, 0, ⟨none, some cxPlayer, some cxPlayer, none⟩, ""⟩
        2 0 ⟨cxF, 2⟩ ⟨fun _ => 1, 0⟩ =
      (⟨3, 0, 0, ⟨none, some cxPlayer, some cxPlayer, some cxPlayer⟩, ""⟩, 3, 0,
       ⟨cxF, 3⟩, ⟨fun _ => 1, 1⟩) := by
  simp only [paStep, cxLineup]
  rw [cx_pa_hit 2 (by norm_num)]
  norm_num [Hit_single_eq, singleStep, probScoreFromSecondOnSingle,
    Game.currentBatterSlug, Rng.next, cxPlayer,
    show ¬ HIT_SINGLE = HIT_OUT from by decide,
    show ¬ ("" : String) = "left" from by decide]

theorem inningLoop_succ (lineup : Fin 9 → Player) (fuel' : ℕ) (g : Game)
    (bi : Fin 9) (outs : ℤ) (r grand : Rng) (h : outs < 3) :
    inningLoop lineup (fuel' + 1) g bi outs r grand =
      inningLoop lineup fuel'
        (paStep lineup g bi outs r grand).1
        (paStep lineup g bi outs r grand).2.1
        (paStep lineup g bi outs r grand).2.2.1
        (paStep lineup g bi outs r grand).2.2.2.1
        (paStep lineup g bi outs r grand).2.2.2.2 := by
  conv_lhs => rw [inningLoop.eq_def]
  rw [if_pos h]

theorem inningLoop_stop (lineup : Fin 9 → Player) (fuel : ℕ) (g : Game)
    (bi : Fin 9) (outs : ℤ) (r grand : Rng) (h : ¬ outs < 3) :
    inningLoop lineup fuel g bi outs r grand = some (g, bi, r, grand) := by
  rw [inningLoop.eq_def, if_neg h]

theorem cx_inning_out (gh gr gl : ℤ) (gp : String) (bi : Fin 9) (i : ℕ)
    (p : Rng) (hi : 3 ≤ i) :
    inningLoop cxLineup 6 ⟨gh, gr, gl, ⟨none, none, none, none⟩, gp⟩ bi 0
        ⟨cxF, i⟩ p =
      some (⟨gh, gr, gl, ⟨none, none, none, none⟩, gp⟩, bi + 1 + 1 + 1,
            ⟨cxF, i + 1 + 1 + 1⟩, p) := by
  rw [show (6 : ℕ) = 5 + 1 from rfl,
    inningLoop_succ cxLineup 5 _ _ _ _ _ (by norm_num),
    cx_pa_step_out gh gr gl gp bi 0 i p hi]
  rw [show (5 : ℕ) = 4 + 1 from rfl,
    inningLoop_succ cxLineup 4 _ _ _ _ _ (by norm_num),
    cx_pa_step_out gh gr gl gp (bi + 1) (0 + 1) (i + 1) p (by omega)]
  rw [show (4 : ℕ) = 3 + 1 from rfl,
    inningLoop_succ cxLineup 3 _ _ _ _ _ (by norm_num),
    cx_pa_step_out gh gr gl gp (bi + 1 + 1) (0 + 1 + 1) (i + 1 + 1) p
      (by omega)]
  rw [inningLoop_stop cxLineup 3 _ _ _ _ _ (by norm_num)]

theorem cx_game_out :
    ∀ (k : ℕ) (gh gr gl : ℤ) (gp : String) (bi : Fin 9) (i : ℕ) (p : Rng),
      3 ≤ i →
      (gameLoop cxLineup 6 k ⟨gh, gr, gl, ⟨none, none, none, none⟩, gp⟩ bi
          ⟨cxF, i⟩ p).map (fun st => st.1) =
        some ⟨gh, gr, gl, ⟨none, none, none, none⟩, gp⟩ := by
  intro k
  induction k with
  | zero => intro gh gr gl gp bi i p hi; rfl
  | succ m ih =>
    intro gh gr gl gp bi i p hi
    rw [gameLoop, cx_inning_out gh gr gl gp bi i p hi, Option.some_bind]
    have hend : inningEnd ⟨gh, gr, gl, ⟨none, none, none, none⟩, gp⟩ =
        (⟨gh, gr, gl, ⟨none, none, none, none⟩, gp⟩ : Game) := by
      norm_num [inningEnd, Game.AddLOB, Field.LOB]
    rw [hend]
    exact ih gh gr gl gp (bi + 1 + 1 + 1) (i + 1 + 1 + 1) p (by omega)

theorem cx_runA :
    runGame cxLineup 6 ⟨cxF, 0⟩ ⟨fun _ => 0, 0⟩ =
      some ⟨3, 1, 2, ⟨none, none, none, none⟩, ""⟩ := by
  have hinn : inningLoop cxLineup 6 initGame 0 0 ⟨cxF, 0⟩ ⟨fun _ => 0, 0⟩ =
      some (⟨3, 1, 0, ⟨none, some cxPlayer, some cxPlayer, none⟩, ""⟩, 6,
            ⟨cxF, 7⟩, ⟨fun _ => 0, 1⟩) := by
    rw [show inningLoop cxLineup 6 = inningLoop cxLineup (5 + 1) from rfl,
      inningLoop_succ cxLineup 5 _ _ _ _ _ (by norm_num), cx_pa1]
    rw [show inningLoop cxLineup 5 = inningLoop cxLineup (4 + 1) from rfl,
      inningLoop_succ cxLineup 4 _ _ _ _ _ (by norm_num), cx_pa2]
    rw [show inningLoop cxLineup 4 = inningLoop cxLineup (3 + 1) from rfl,
      inningLoop_succ cxLineup 3 _ _ _ _ _ (by norm_num), cx_pa3A]
    rw [show inningLoop cxLineup 3 = inningLoop cxLineup (2 + 1) from rfl,
      inningLoop_succ cxLineup 2 _ _ _ _ _ (by norm_num),
      cx_pa_step_out_dp 3 1 0 "" (some cxPlayer) none 3 3 ⟨fun _ => 0, 1⟩
        (by norm_num)]
    rw [show inningLoop cxLineup 2 = inningLoop cxLineup (1 + 1) from rfl,
      inningLoop_succ cxLineup 1 _ _ _ _ _ (by norm_num),
      cx_pa_step_out_late 3 1 0 "" (some cxPlayer) (some cxPlayer) none
        (3 + 1) 1 (3 + 2) ⟨fun _ => 0, 1⟩ (by omega) (by norm_num)]
    rw [show inningLoop cxLineup 1 = inningLoop cxLineup (0 + 1) from rfl,
      inningLoop_succ cxLineup 0 _ _ _ _ _ (by norm_num),
      cx_pa_step_out_late 3 1 0 "" (some cxPlayer) (some cxPlayer) none
        (3 + 1 + 1) (1 + 1) (3 + 2 + 1) ⟨fun _ => 0, 1⟩ (by omega)
        (by norm_num)]
    rw [inningLoop_stop cxLineup 0 _ _ _ _ _ (by norm_num)]
    rfl
  unfold runGame
  rw [show gameLoop cxLineup 6 9 = gameLoop cxLineup 6 (8 + 1) from rfl,
    gameLoop, hinn, Option.some_bind]
  have hend : inningEnd
      ⟨3, 1, 0, ⟨none, some cxPlayer, some cxPlayer, none⟩, ""⟩ =
      (⟨3, 1, 2, ⟨none, none, none, none⟩, ""⟩ : Game) := by
    norm_num [inningEnd, Game.AddLOB, Field.LOB]
  rw [hend]
  exact cx_game_out 8 3 1 2 "" 6 7 ⟨fun _ => 0, 1⟩ (by norm_num)

theorem cx_runB :
    runGame cxLineup 6 ⟨cxF, 0⟩ ⟨fun _ => 1, 0⟩ =
      some ⟨3, 0, 3, ⟨none, none, none, none⟩, ""⟩ := by
  have hinn : inningLoop cxLineup 6 initGame 0 0 ⟨cxF, 0⟩ ⟨fun _ => 1, 0⟩ =
      some (⟨3, 0, 0, ⟨none, some cxPlayer, some cxPlayer, some cxPlayer⟩, ""⟩,
            6, ⟨cxF, 7⟩, ⟨fun _ => 1, 1⟩) := by
    rw [show inningLoop cxLineup 6 = inningLoop cxLineup (5 + 1) from rfl,
      inningLoop_succ cxLineup 5 _ _ _ _ _ (by norm_num), cx_pa1B]
    rw [show inningLoop cxLineup 5 = inningLoop cxLineup (4 + 1) from rfl,
      inningLoop_succ cxLineup 4 _ _ _ _ _ (by norm_num), cx_pa2]
    rw [show inningLoop cxLineup 4 = inningLoop cxLineup (3 + 1) from rfl,
      inningLoop_succ cxLineup 3 _ _ _ _ _ (by norm_num), cx_pa3B]
    rw [show inningLoop cxLineup 3 = inningLoop cxLineup (2 + 1) from rfl,
      inningLoop_succ cxLineup 2 _ _ _ _ _ (by norm_num),
      cx_pa_step_out_dp 3 0 0 "" (some cxPlayer) (some cxPlayer) 3 3
        ⟨fun _ => 1, 1⟩ (by norm_num)]
    rw [show inningLoop cxLineup 2 = inningLoop cxLineup (1 + 1) from rfl,
      inningLoop_succ cxLineup 1 _ _ _ _ _ (by norm_num),
      cx_pa_step_out_late 3 0 0 "" (some cxPlayer) (some cxPlayer)
        (some cxPlayer) (3 + 1) 1 (3 + 2) ⟨fun _ => 1, 1⟩ (by omega)
        (by norm_num)]
    rw [show inningLoop cxLineup 1 = inningLoop cxLineup (0 + 1) from rfl,
      inningLoop_succ cxLineup 0 _ _ _ _ _ (by norm_num),
      cx_pa_step_out_late 3 0 0 "" (some cxPlayer) (some cxPlayer)
        (some cxPlayer) (3 + 1 + 1) (1 + 1) (3 + 2 + 1) ⟨fun _ => 1, 1⟩
        (by omega) (by norm_num)]
    rw [inningLoop_stop cxLineup 0 _ _ _ _ _ (by norm_num)]
    rfl
  unfold runGame
  rw [show gameLoop cxLineup 6 9 = gameLoop cxLineup 6 (8 + 1) from rfl,
    gameLoop, hinn, Option.some_bind]
  have hend : inningEnd
      ⟨3, 0, 0, ⟨none, some cxPlayer, some cxPlayer, some cxPlayer⟩, ""⟩ =
      (⟨3, 0, 3, ⟨none, none, none, none⟩, ""⟩ : Game) := by
    norm_num [inningEnd, Game.AddLOB, Field.LOB]
  rw [hend]
  exact cx_game_out 8 3 0 3 "" 6 7 ⟨fun _ => 1, 1⟩ (by norm_num)

/-- Claim C5 counterexample: two runs of one simulated game over the same
lineup and the same per-game draw sequence, differing only in the
package-global sequence consumed by Game.Hit's runner-scoring draws
(types.go lines 119 and 149), end with different Runs totals (1 versus 0),
so the outcome is not a function of the lineup and the random stream
handed to the game alone. -/
theorem game_deterministic_counterexample :
    (runGame cxLineup 6 ⟨cxF, 0⟩ ⟨fun _ => 0, 0⟩).map Game.Runs ≠
      (runGame cxLineup 6 ⟨cxF, 0⟩ ⟨fun _ => 1, 0⟩).map Game.Runs := by
  rw [cx_runA, cx_runB]
  intro h
  simp only [Option.map_some', Option.some.injEq] at h
  exact absurd h (by norm_num [Game.Runs])

/-- Claim C5, amended: a simulated game is a deterministic function of the
lineup and of BOTH random sources: the per-game stream handed to the game
(consumed by PlateAppearance and the double-play check) and the
package-global stream consumed by Game.Hit's runner-scoring draws.  Two
runs over identical pairs of seeded sequences give identical results
(hence identical Runs, Hits and LOB totals); the per-game stream alone
does not determine the outcome. -/
theorem game_deterministic (lineup : Fin 9 → Player) (fuel : ℕ)
    (f1 f2 p1 p2 : ℕ → ℚ) (hf : ∀ i, f1 i = f2 i) (hp : ∀ i, p1 i = p2 i) :
    runGame lineup fuel ⟨f1, 0⟩ ⟨p1, 0⟩ =
      runGame lineup fuel ⟨f2, 0⟩ ⟨p2, 0⟩ := by
  rw [funext hf, funext hp]

theorem game_deterministic_witness :
    runGame sampleLineup 3 ⟨fun _ => 0.9, 0⟩ ⟨fun _ => 0.5, 0⟩ =
      runGame sampleLineup 3 ⟨fun _ => 0.9, 0⟩ ⟨fun _ => 0.5, 0⟩ :=
  game_deterministic sampleLineup 3 (fun _ => 0.9) (fun _ => 0.9)
    (fun _ => 0.5) (fun _ => 0.5) (fun _ => rfl) (fun _ => rfl)

/-- Counters never decrease from g to g'. -/
def Progresses (g g' : Game) : Prop :=
  g.Runs ≤ g'.Runs ∧ g.Hits ≤ g'.Hits ∧ g.LOB ≤ g'.LOB

theorem progresses_refl (g : Game) : Progresses g g :=
  ⟨le_refl _, le_refl _, le_refl _⟩

theorem progresses_trans {a b c : Game} (h1 : Progresses a b)
    (h2 : Progresses b c) : Progresses a c :=
  ⟨h1.1.trans h2.1, h1.2.1.trans h2.2.1, h1.2.2.trans h2.2.2⟩

theorem walkStep_progress (g : Game) : Progresses g (walkStep g) := by
  unfold walkStep Progresses
  dsimp only
  split_ifs <;> refine ⟨?_, le_refl _, le_refl _⟩ <;> dsimp only <;> omega

theorem singleStep_progress (g : Game) (r : Rng) :
    Progresses g (singleStep g r).1 := by
  unfold singleStep Progresses
  dsimp only
  split_ifs <;> refine ⟨?_, ?_, le_refl _⟩ <;> dsimp only <;> omega

theorem doubleStep_progress (g : Game) (r : Rng) :
    Progresses g (doubleStep g r).1 := by
  unfold doubleStep Progresses
  dsimp only
  split_ifs <;> refine ⟨?_, ?_, le_refl _⟩ <;> dsimp only <;> omega

theorem tripleStep_progress (g : Game) : Progresses g (tripleStep g) := by
  unfold tripleStep Progresses
  dsimp only
  split_ifs <;> refine ⟨?_, ?_, le_refl _⟩ <;> dsimp only <;> omega

theorem homerunStep_progress (g : Game) : Progresses g (homerunStep g) := by
  unfold homerunStep Progresses
  dsimp only
  split_ifs <;> refine ⟨?_, ?_, le_refl _⟩ <;> dsimp only <;> omega

theorem hit_progress (g : Game) (ht : String) (r : Rng) :
    Progresses g (g.Hit ht r).1 := by
  by_cases h1 : ht = HIT_BY_PITCH_WALK
  · subst h1; rw [Hit_walk_eq]; exact walkStep_progress g
  by_cases h2 : ht = HIT_SINGLE
  · subst h2; rw [Hit_single_eq]; exact singleStep_progress g r
  by_cases h3 : ht = HIT_DOUBLE
  · subst h3; rw [Hit_double_eq]; exact doubleStep_progress g r
  by_cases h4 : ht = HIT_TRIPLE
  · subst h4; rw [Hit_triple_eq]; exact tripleStep_progress g
  by_cases h5 : ht = HIT_HOMERUN
  · subst h5; rw [Hit_homerun_eq]; exact homerunStep_progress g
  rw [Hit_other_eq g ht r h1 h2 h3 h4 h5]
  exact progresses_refl g

theorem outStep_progress (g : Game) (outs : ℤ) (r : Rng) :
    Progresses g (outStep g outs r).1 := by
  unfold outStep Progresses
  dsimp only
  split_ifs <;> exact ⟨le_refl _, le_refl _, le_refl _⟩

theorem outStep_outs_bounds (g : Game) (outs : ℤ) (r : Rng)
    (h0 : 0 ≤ outs) (h3 : outs < 3) :
    0 ≤ (outStep g outs r).2.1 ∧ (outStep g outs r).2.1 ≤ 3 := by
  unfold outStep
  dsimp only
  split_ifs with hc hu
  · obtain ⟨-, hco⟩ := hc
    dsimp only
    omega
  · obtain ⟨-, hco⟩ := hc
    dsimp only
    omega
  · dsimp only
    omega
theorem paStep_progress (lineup : Fin 9 → Player) (g : Game) (bi : Fin 9)
    (outs : ℤ) (r grand : Rng) (h0 : 0 ≤ outs) (h3 : outs < 3) :
    Progresses g (paStep lineup g bi outs r grand).1 ∧
    0 ≤ (paStep lineup g bi outs r grand).2.2.1 ∧
    (paStep lineup g bi outs r grand).2.2.1 ≤ 3 := by
  unfold paStep
  dsimp only
  split_ifs
  · have hx := outStep_progress
      { g with Field := { g.Field with AtBat := some (lineup bi) } } outs
      ((lineup bi).PlateAppearance "right" r).2
    have hb := outStep_outs_bounds
      { g with Field := { g.Field with AtBat := some (lineup bi) } } outs
      ((lineup bi).PlateAppearance "right" r).2 h0 h3
    exact ⟨⟨hx.1, hx.2.1, hx.2.2⟩, hb.1, hb.2⟩
  · have hh := hit_progress
      { g with Field := { g.Field with AtBat := some (lineup bi) } }
      ((lineup bi).PlateAppearance "right" r).1 grand
    exact ⟨⟨hh.1, hh.2.1, hh.2.2⟩, h0, le_of_lt h3⟩

theorem inningLoop_progress :
    ∀ (fuel : ℕ) (lineup : Fin 9 → Player) (g : Game) (bi : Fin 9) (outs : ℤ)
      (r grand : Rng) (st : Game × Fin 9 × Rng × Rng), 0 ≤ outs →
      inningLoop lineup fuel g bi outs r grand = some st →
      Progresses g st.1 := by
  intro fuel
  induction fuel with
  | zero =>
    intro lineup g bi outs r grand st h0 h
    rw [inningLoop] at h
    by_cases houts : outs < 3
    · rw [if_pos houts] at h
      exact Option.noConfusion h
    · rw [if_neg houts] at h
      injection h with h2
      subst h2
      exact progresses_refl g
  | succ n ih =>
    intro lineup g bi outs r grand st h0 h
    rw [inningLoop] at h
    by_cases houts : outs < 3
    · rw [if_pos houts] at h
      dsimp only at h
      have hp := paStep_progress lineup g bi outs r grand h0 houts
      exact progresses_trans hp.1 (ih lineup _ _ _ _ _ st hp.2.1 h)
    · rw [if_neg houts] at h
      injection h with h2
      subst h2
      exact progresses_refl g

theorem lob_bounds (f : Field) : 0 ≤ f.LOB ∧ f.LOB ≤ 3 := by
  unfold Field.LOB
  dsimp only
  split_ifs <;> omega

theorem inningEnd_progress (g : Game) : Progresses g (inningEnd g) := by
  unfold inningEnd Game.AddLOB
  dsimp only
  refine ⟨le_refl _, le_refl _, ?_⟩
  have h := (lob_bounds g.Field).1
  show g.LOB ≤ g.LOB + g.Field.LOB
  omega

theorem gameLoop_progress :
    ∀ (n fuel : ℕ) (lineup : Fin 9 → Player) (g : Game) (bi : Fin 9)
      (r grand : Rng) (st : Game × Fin 9 × Rng × Rng),
      gameLoop lineup fuel n g bi r grand = some st → Progresses g st.1 := by
  intro n
  induction n with
  | zero =>
    intro fuel lineup g bi r grand st h
    simp only [gameLoop] at h
    injection h with h2
    subst h2
    exact progresses_refl g
  | succ m ih =>
    intro fuel lineup g bi r grand st h
    simp only [gameLoop] at h
    rcases Option.bind_eq_some.mp h with ⟨a, ha, hrest⟩
    exact progresses_trans
      (inningLoop_progress fuel lineup g bi 0 r grand a (le_refl 0) ha)
      (progresses_trans (inningEnd_progress a.1)
        (ih fuel lineup (inningEnd a.1) a.2.1 a.2.2.1 a.2.2.2 st hrest))

/-- Claim C9: within a half-inning the outs count stays in [0,3] across
every plate appearance, the left-on-base value recorded at an inning
boundary (Field.LOB) is always in [0,3], and Runs and Hits are
monotonically non-decreasing along the inning loop (hence a finished
game's Runs, Hits and LOB totals are non-negative). -/
theorem game_invariants :
    (∀ f : Field, 0 ≤ f.LOB ∧ f.LOB ≤ 3) ∧
    (∀ (lineup : Fin 9 → Player) (g : Game) (bi : Fin 9) (outs : ℤ)
      (r grand : Rng), 0 ≤ outs → outs < 3 →
        0 ≤ (paStep lineup g bi outs r grand).2.2.1 ∧
        (paStep lineup g bi outs r grand).2.2.1 ≤ 3 ∧
        g.Runs ≤ (paStep lineup g bi outs r grand).1.Runs ∧
        g.Hits ≤ (paStep lineup g bi outs r grand).1.Hits) ∧
    (∀ (lineup : Fin 9 → Player) (fuel : ℕ) (g : Game) (bi : Fin 9) (outs : ℤ)
      (r grand : Rng) (st : Game × Fin 9 × Rng × Rng), 0 ≤ outs →
        inningLoop lineup fuel g bi outs r grand = some st →
        g.Runs ≤ st.1.Runs ∧ g.Hits ≤ st.1.Hits ∧ g.LOB ≤ st.1.LOB) ∧
    (∀ (lineup : Fin 9 → Player) (fuel : ℕ) (r grand : Rng) (g : Game),
        runGame lineup fuel r grand = some g →
        0 ≤ g.Runs ∧ 0 ≤ g.Hits ∧ 0 ≤ g.LOB) := by
  refine ⟨lob_bounds, ?_, ?_, ?_⟩
  · intro lineup g bi outs r grand h0 h3
    have hp := paStep_progress lineup g bi outs r grand h0 h3
    exact ⟨hp.2.1, hp.2.2, hp.1.1, hp.1.2.1⟩
  · intro lineup fuel g bi outs r grand st h0 h
    exact inningLoop_progress fuel lineup g bi outs r grand st h0 h
  · intro lineup fuel r grand g h
    unfold runGame at h
    rcases Option.map_eq_some'.mp h with ⟨st, hst, hb⟩
    subst hb
    have hpr := gameLoop_progress 9 fuel lineup initGame 0 r grand st hst
    exact ⟨hpr.1, hpr.2.1, hpr.2.2⟩

theorem game_invariants_witness :
    0 ≤ (paStep sampleLineup initGame 0 0 ⟨fun _ => 0.9, 0⟩
          ⟨fun _ => 0.5, 0⟩).2.2.1 ∧
    (paStep sampleLineup initGame 0 0 ⟨fun _ => 0.9, 0⟩
      ⟨fun _ => 0.5, 0⟩).2.2.1 ≤ 3 ∧
    initGame.Runs ≤ (paStep sampleLineup initGame 0 0 ⟨fun _ => 0.9, 0⟩
      ⟨fun _ => 0.5, 0⟩).1.Runs ∧
    initGame.Hits ≤ (paStep sampleLineup initGame 0 0 ⟨fun _ => 0.9, 0⟩
      ⟨fun _ => 0.5, 0⟩).1.Hits :=
  game_invariants.2.1 sampleLineup initGame 0 0 ⟨fun _ => 0.9, 0⟩
    ⟨fun _ => 0.5, 0⟩ (by norm_num) (by norm_num)

end baseball

/-- The list of combinations emitted by the recursion rec(i, start) of
combinations (main.go lines 32-50).  The first argument r is the number of
indices still to choose (k - i in the source); for each s from start to
n-(k-i) the index s is placed and the recursion continues from s+1. -/
def combsFrom (n : ℕ) : ℕ → ℕ → List (List ℕ)
  | 0, _start => [[]]
  | r + 1, start =>
    (List.range' start (n + 1 - (r + 1) - start)).flatMap fun s =>
      (combsFrom n r (s + 1)).map (s :: ·)

/-- combinations(n, k, yield) with an always-continue yield: the emitted
sequence. -/
def combinationsList (n k : ℕ) : List (List ℕ) := combsFrom n k 0

/-- The in-place swap perm[i], perm[j] = perm[j], perm[i] of permutations
(main.go lines 55-76); both reads happen before the writes. -/
def swapL (l : List ℕ) (i j : ℕ) : List ℕ :=
  (l.set i (l.getD j 0)).set j (l.getD i 0)

/-- The list of permutations emitted by rec(i) of permutations (main.go
lines 55-76): emit when i reaches the length, else for each j in [i, len)
swap positions i and j, recurse at i+1, and swap back (the swap-back is
modelled by recursing on the swapped copy and continuing from the original
list). -/
def permsAux (l : List ℕ) (i : ℕ) : List (List ℕ) :=
  if _h : l.length ≤ i then [l]
  else
    (List.range' i (l.length - i)).flatMap fun j => permsAux (swapL l i j) (i + 1)
termination_by l.length - i
decreasing_by simp only [swapL, List.length_set]; omega

/-- permutations(idx, yield) with an always-continue yield: the emitted
sequence. -/
def permutationsList (l : List ℕ) : List (List ℕ) := permsAux l 0

/-- The full enumeration of ordered 9-index lineups produced by the nested
combinations/permutations generators in main.go lines 154-165. -/
def lineups (n : ℕ) : List (List ℕ) :=
  (combinationsList n 9).flatMap permutationsList

theorem swapL_length (l : List ℕ) (i j : ℕ) : (swapL l i j).length = l.length := by
  simp [swapL]

theorem set_getD_self : ∀ (l : List ℕ) (i : ℕ), l.set i (l.getD i 0) = l := by
  intro l
  induction l with
  | nil => intro i; rfl
  | cons a t ih =>
    intro i
    cases i with
    | zero => simp only [List.getD_cons_zero, List.set_cons_zero]
    | succ i =>
      simp only [List.getD_cons_succ, List.set_cons_succ]
      rw [ih i]

theorem swapL_self (l : List ℕ) (i : ℕ) : swapL l i i = l := by
  unfold swapL
  rw [set_getD_self, set_getD_self]

theorem getD_cons_perm :
    ∀ (t : List ℕ) (m : ℕ) (a : ℕ), m < t.length →
      (t.getD m 0 :: t.set m a).Perm (a :: t) := by
  intro t
  induction t with
  | nil => intro m a h; simp at h
  | cons b t' ih =>
    intro m a h
    cases m with
    | zero =>
      simp only [List.getD_cons_zero, List.set_cons_zero]
      exact List.Perm.swap a b t'
    | succ m =>
      simp only [List.getD_cons_succ, List.set_cons_succ]
      have h' : m < t'.length := by simpa using h
      exact ((List.Perm.swap b (t'.getD m 0) (t'.set m a)).trans
        ((ih m a h').cons b)).trans (List.Perm.swap a b t')

theorem swapL_comm (l : List ℕ) (i j : ℕ) : swapL l i j = swapL l j i := by
  by_cases h : i = j
  · subst h; rfl
  · unfold swapL
    rw [List.set_comm _ _ _ h]

theorem swapL_perm :
    ∀ (l : List ℕ) (i j : ℕ), i < l.length → j < l.length → (swapL l i j).Perm l := by
  intro l
  induction l with
  | nil => intro i j hi _; simp at hi
  | cons a t ih =>
    intro i j hi hj
    cases i with
    | zero =>
      cases j with
      | zero => rw [swapL_self]
      | succ j =>
        have hj' : j < t.length := by simpa using hj
        unfold swapL
        simp only [List.getD_cons_succ, List.getD_cons_zero, List.set_cons_zero,
          List.set_cons_succ]
        exact getD_cons_perm t j a hj'
    | succ i =>
      cases j with
      | zero =>
        rw [swapL_comm]
        have hi' : i < t.length := by simpa using hi
        unfold swapL
        simp only [List.getD_cons_succ, List.getD_cons_zero, List.set_cons_zero,
          List.set_cons_succ]
        exact getD_cons_perm t i a hi'
      | succ j =>
        have hi' : i < t.length := by simpa using hi
        have hj' : j < t.length := by simpa using hj
        unfold swapL
        simp only [List.getD_cons_succ, List.set_cons_succ]
        exact (ih i j hi' hj').cons a

theorem map_const_sum {α : Type} (xs : List α) (c : ℕ) :
    (xs.map fun _ => c).sum = xs.length * c := by
  induction xs with
  | nil => simp
  | cons x xs ih => simp [ih, Nat.succ_mul, Nat.add_comm]

theorem permsAux_length (l : List ℕ) (i : ℕ) :
    (permsAux l i).length = Nat.factorial (l.length - i) := by
  have key : ∀ (m : ℕ) (l : List ℕ) (i : ℕ), l.length - i = m →
      (permsAux l i).length = Nat.factorial m := by
    intro m
    induction m with
    | zero =>
      intro l i hm
      unfold permsAux
      rw [dif_pos (by omega)]
      rfl
    | succ m ih =>
      intro l i hm
      unfold permsAux
      rw [dif_neg (by omega), List.length_flatMap]
      have hc : ∀ j ∈ List.range' i (l.length - i),
          (List.length ∘ fun j => permsAux (swapL l i j) (i + 1)) j =
            Nat.factorial m := by
        intro j _
        exact ih (swapL l i j) (i + 1) (by rw [swapL_length]; omega)
      rw [List.map_congr_left hc, map_const_sum, List.length_range', hm,
        Nat.factorial_succ]
  exact key (l.length - i) l i rfl

theorem take_set_of_le :
    ∀ (l : List ℕ) (m i x : ℕ), i ≤ m → (l.set m x).take i = l.take i := by
  intro l
  induction l with
  | nil => intro m i x _; simp
  | cons a t ih =>
    intro m i x h
    cases i with
    | zero => simp
    | succ i =>
      cases m with
      | zero => omega
      | succ m =>
        simp only [List.set_cons_succ, List.take_succ_cons]
        rw [ih m i x (by omega)]

theorem swapL_take (l : List ℕ) (i j i0 : ℕ) (hi : i0 ≤ i) (hj : i0 ≤ j) :
    (swapL l i j).take i0 = l.take i0 := by
  unfold swapL
  rw [take_set_of_le _ _ _ _ hj, take_set_of_le _ _ _ _ hi]

theorem swapL_getD_left (l : List ℕ) (i j : ℕ) (hi : i < l.length)
    (hj : j < l.length) : (swapL l i j).getD i 0 = l.getD j 0 := by
  by_cases h : i = j
  · subst h; rw [swapL_self]
  · unfold swapL
    rw [List.getD_eq_getElem _ 0 (by simp only [List.length_set]; exact hi),
      List.getElem_set, if_neg (fun heq => h heq.symm), List.getElem_set,
      if_pos rfl]

theorem take_succ_getD (l : List ℕ) (i : ℕ) (h : i < l.length) :
    l.take (i + 1) = l.take i ++ [l.getD i 0] := by
  rw [List.take_succ, List.getElem?_eq_getElem h, List.getD_eq_getElem _ 0 h]
  rfl

theorem mem_permsAux :
    ∀ (l : List ℕ) (i : ℕ) (b : List ℕ),
      b ∈ permsAux l i ↔ b.Perm l ∧ b.take i = l.take i := by
  have key : ∀ (m : ℕ) (l : List ℕ) (i : ℕ), l.length - i = m →
      ∀ b : List ℕ, b ∈ permsAux l i ↔ b.Perm l ∧ b.take i = l.take i := by
    intro m
    induction m with
    | zero =>
      intro l i hm b
      unfold permsAux
      rw [dif_pos (by omega)]
      rw [List.mem_singleton]
      constructor
      · rintro rfl
        exact ⟨List.Perm.refl _, rfl⟩
      · rintro ⟨hp, ht⟩
        have hbl : b.length = l.length := hp.length_eq
        rw [List.take_of_length_le (by omega), List.take_of_length_le (by omega)]
          at ht
        exact ht
    | succ m ih =>
      intro l i hm b
      have hil : i < l.length := by omega
      unfold permsAux
      rw [dif_neg (by omega), List.mem_flatMap]
      constructor
      · rintro ⟨j, hj, hb⟩
        rw [List.mem_range'_1] at hj
        have hjl : j < l.length := by omega
        rw [ih (swapL l i j) (i + 1) (by rw [swapL_length]; omega)] at hb
        refine ⟨hb.1.trans (swapL_perm l i j hil hjl), ?_⟩
        have h2 := congrArg (List.take i) hb.2
        rw [List.take_take, List.take_take] at h2
        have hmin : min i (i + 1) = i := by omega
        rw [hmin] at h2
        rw [h2, swapL_take l i j i (le_refl i) hj.1]
      · rintro ⟨hperm, htake⟩
        have hlen : b.length = l.length := hperm.length_eq
        have hib : i < b.length := by omega
        have hdropperm : (b.drop i).Perm (l.drop i) := by
          have h1 : (b.take i ++ b.drop i).Perm (l.take i ++ l.drop i) := by
            rw [List.take_append_drop, List.take_append_drop]
            exact hperm
          rw [htake] at h1
          exact (List.perm_append_left_iff (l.take i)).mp h1
        have hmem : b.getD i 0 ∈ l.drop i := by
          apply hdropperm.mem_iff.mp
          have h0 : 0 < (b.drop i).length := by
            rw [List.length_drop]; omega
          have hdg : (b.drop i)[0] = b.getD i 0 := by
            rw [List.getElem_drop, List.getD_eq_getElem _ 0 hib]
            simp only [Nat.add_zero]
          rw [← hdg]
          exact List.getElem_mem h0
        rw [List.mem_iff_getElem] at hmem
        obtain ⟨k, hk, hkeq⟩ := hmem
        rw [List.length_drop] at hk
        have hikl : i + k < l.length := by omega
        refine ⟨i + k, ?_, ?_⟩
        · rw [List.mem_range'_1]; omega
        · rw [ih (swapL l i (i + k)) (i + 1) (by rw [swapL_length]; omega)]
          refine ⟨hperm.trans (swapL_perm l i (i + k) hil hikl).symm, ?_⟩
          have e0 : (swapL l i (i + k)).length = l.length := swapL_length l i (i + k)
          rw [take_succ_getD b i hib,
            take_succ_getD (swapL l i (i + k)) i (by rw [e0]; exact hil)]
          have e1 : b.take i = (swapL l i (i + k)).take i := by
            rw [htake, swapL_take l i (i + k) i (le_refl i) (by omega)]
          have e2 : b.getD i 0 = (swapL l i (i + k)).getD i 0 := by
            rw [swapL_getD_left l i (i + k) hil hikl,
              List.getD_eq_getElem _ 0 hikl, ← List.getElem_drop, hkeq]
          rw [e1, e2]
  intro l i b
  exact key (l.length - i) l i rfl b

theorem permsAux_nodup :
    ∀ (l : List ℕ) (i : ℕ), l.Nodup → (permsAux l i).Nodup := by
  have key : ∀ (m : ℕ) (l : List ℕ) (i : ℕ), l.length - i = m → l.Nodup →
      (permsAux l i).Nodup := by
    intro m
    induction m with
    | zero =>
      intro l i hm _
      unfold permsAux
      rw [dif_pos (by omega)]
      exact List.nodup_singleton l
    | succ m ih =>
      intro l i hm hnd
      have hil : i < l.length := by omega
      unfold permsAux
      rw [dif_neg (by omega)]
      apply List.nodup_flatMap.2
      constructor
      · intro j hj
        rw [List.mem_range'_1] at hj
        have hjl : j < l.length := by omega
        exact ih (swapL l i j) (i + 1) (by rw [swapL_length]; omega)
          (((swapL_perm l i j hil hjl).nodup_iff).mpr hnd)
      · apply List.Pairwise.imp_of_mem ?_ (List.nodup_range' i (l.length - i))
        intro j j' hj hj' hne b hbj hbj'
        rw [List.mem_range'_1] at hj hj'
        have hjl : j < l.length := by omega
        have hjl' : j' < l.length := by omega
        rw [mem_permsAux] at hbj hbj'
        have hlen1 : i < (swapL l i j).length := by rw [swapL_length]; omega
        have hlen2 : i < (swapL l i j').length := by rw [swapL_length]; omega
        have hEq : (swapL l i j).take (i + 1) = (swapL l i j').take (i + 1) := by
          rw [← hbj.2, hbj'.2]
        rw [take_succ_getD _ i hlen1, take_succ_getD _ i hlen2] at hEq
        have hA : (swapL l i j).take i = (swapL l i j').take i := by
          rw [swapL_take l i j i (le_refl i) hj.1,
            swapL_take l i j' i (le_refl i) hj'.1]
        rw [hA] at hEq
        have hsing := List.append_cancel_left hEq
        have hx : (swapL l i j).getD i 0 = (swapL l i j').getD i 0 := by
          injection hsing
        rw [swapL_getD_left l i j hil hjl, swapL_getD_left l i j' hil hjl'] at hx
        rw [List.getD_eq_getElem _ 0 hjl, List.getD_eq_getElem _ 0 hjl'] at hx
        exact hne (hnd.getElem_inj_iff.mp hx)
  intro l i
  exact key (l.length - i) l i rfl

theorem sorted_bound (n : ℕ) :
    ∀ (c : List ℕ) (s : ℕ), s < n → c.Pairwise (· < ·) →
      (∀ x ∈ c, s < x ∧ x < n) → s + c.length < n := by
  intro c
  induction c with
  | nil => intro s hs _ _; simpa using hs
  | cons x t ih =>
    intro s hs hp hb
    rw [List.pairwise_cons] at hp
    have hx := hb x (List.mem_cons_self x t)
    have ht : x + t.length < n := by
      apply ih x hx.2 hp.2
      intro y hy
      exact ⟨hp.1 y hy, (hb y (List.mem_cons_of_mem x hy)).2⟩
    simp only [List.length_cons]
    omega

theorem mem_combsFrom (n : ℕ) :
    ∀ (r start : ℕ) (c : List ℕ),
      c ∈ combsFrom n r start ↔
        c.length = r ∧ c.Pairwise (· < ·) ∧ ∀ x ∈ c, start ≤ x ∧ x < n := by
  intro r
  induction r with
  | zero =>
    intro start c
    simp only [combsFrom, List.mem_singleton]
    constructor
    · rintro rfl
      exact ⟨rfl, List.Pairwise.nil, by simp⟩
    · rintro ⟨hl, -, -⟩
      exact List.length_eq_zero.mp hl
  | succ r ih =>
    intro start c
    simp only [combsFrom, List.mem_flatMap, List.mem_map]
    constructor
    · rintro ⟨s, hs, c', hc', rfl⟩
      rw [List.mem_range'_1] at hs
      rw [ih (s + 1) c'] at hc'
      obtain ⟨hlen, hpair, hbound⟩ := hc'
      refine ⟨by simp [hlen], ?_, ?_⟩
      · rw [List.pairwise_cons]
        exact ⟨fun y hy => by have := hbound y hy; omega, hpair⟩
      · intro x hx
        rcases List.mem_cons.mp hx with rfl | hx'
        · constructor
          · exact hs.1
          · omega
        · have := hbound x hx'
          omega
    · rintro ⟨hlen, hpair, hbound⟩
      cases c with
      | nil => simp at hlen
      | cons x c' =>
        rw [List.pairwise_cons] at hpair
        have hx := hbound x (List.mem_cons_self x c')
        have hlen' : c'.length = r := by simpa using hlen
        have hcb : x + c'.length < n := by
          apply sorted_bound n c' x hx.2 hpair.2
          intro y hy
          exact ⟨hpair.1 y hy, (hbound y (List.mem_cons_of_mem x hy)).2⟩
        refine ⟨x, ?_, c', ?_, rfl⟩
        · rw [List.mem_range'_1]
          constructor
          · exact hx.1
          · omega
        · rw [ih (x + 1) c']
          refine ⟨hlen', hpair.2, fun y hy => ⟨hpair.1 y hy, (hbound y
            (List.mem_cons_of_mem x hy)).2⟩⟩

theorem combsFrom_nodup (n : ℕ) :
    ∀ (r start : ℕ), (combsFrom n r start).Nodup := by
  intro r
  induction r with
  | zero => intro start; exact List.nodup_singleton []
  | succ r ih =>
    intro start
    simp only [combsFrom]
    apply List.nodup_flatMap.2
    constructor
    · intro s _
      exact (ih (s + 1)).map List.cons_injective
    · apply List.Pairwise.imp_of_mem ?_
        (List.nodup_range' start (n + 1 - (r + 1) - start))
      intro s s' _ _ hne b hbs hbs'
      rw [List.mem_map] at hbs hbs'
      obtain ⟨c1, -, hc1⟩ := hbs
      obtain ⟨c2, -, hc2⟩ := hbs'
      apply hne
      have := hc1.trans hc2.symm
      injection this

theorem combsFrom_length (n : ℕ) :
    ∀ (r start : ℕ), (combsFrom n r start).length = (n - start).choose r := by
  intro r
  induction r with
  | zero =>
    intro start
    simp [combsFrom]
  | succ r ihr =>
    have key : ∀ (m start : ℕ), n - start = m →
        (combsFrom n (r + 1) start).length = (n - start).choose (r + 1) := by
      intro m
      induction m with
      | zero =>
        intro start hm
        simp [combsFrom, show n - r - start = 0 by omega, hm]
      | succ m ihm =>
        intro start hm
        by_cases hc : n + 1 - (r + 1) - start = 0
        · simp [combsFrom, show n - r - start = 0 by omega]
          rw [Nat.choose_eq_zero_of_lt (by omega)]
        · obtain ⟨c2, hc2⟩ : ∃ c2, n + 1 - (r + 1) - start = c2 + 1 :=
            ⟨n + 1 - (r + 1) - start - 1, by omega⟩
          have hsplit : combsFrom n (r + 1) start =
              (combsFrom n r (start + 1)).map (start :: ·) ++
                combsFrom n (r + 1) (start + 1) := by
            conv_lhs => rw [combsFrom]
            rw [hc2, List.range'_succ, List.flatMap_cons]
            congr 1
            conv_rhs => rw [combsFrom]
            have : n + 1 - (r + 1) - (start + 1) = c2 := by omega
            rw [this]
          rw [hsplit, List.length_append, List.length_map,
            ihr (start + 1), ihm (start + 1) (by omega)]
          have h1 : n - start = (n - (start + 1)) + 1 := by omega
          rw [h1, Nat.choose_succ_succ]
    intro start
    exact key (n - start) start rfl

/-- Claim C3: the nested combination/permutation enumerator yields exactly
C(n,9) * 362880 ordered 9-index lineups, with no ordered lineup duplicated
and none omitted (every list of 9 distinct indices below n occurs); for
n = 9 this is exactly the 362880 permutations of the single 9-subset. -/
theorem lineups_exhaustive (n : ℕ) :
    (lineups n).length = n.choose 9 * 362880 ∧
    (lineups n).Nodup ∧
    ∀ l : List ℕ, l.length = 9 → l.Nodup → (∀ x ∈ l, x < n) →
      l ∈ lineups n := by
  refine ⟨?_, ?_, ?_⟩
  · unfold lineups combinationsList permutationsList
    rw [List.length_flatMap]
    have hc : ∀ c ∈ combsFrom n 9 0,
        (List.length ∘ fun l => permsAux l 0) c = 362880 := by
      intro c hcm
      have h9 : c.length = 9 := ((mem_combsFrom n 9 0 c).mp hcm).1
      simp only [Function.comp_apply]
      rw [permsAux_length, h9]
      rfl
    rw [List.map_congr_left hc, map_const_sum, combsFrom_length]
    simp
  · unfold lineups combinationsList permutationsList
    apply List.nodup_flatMap.2
    constructor
    · intro c hcm
      have hp := ((mem_combsFrom n 9 0 c).mp hcm).2.1
      exact permsAux_nodup c 0 (hp.imp ne_of_lt)
    · apply List.Pairwise.imp_of_mem ?_ (combsFrom_nodup n 9 0)
      intro c c' hcm hcm' hne b hb hb'
      rw [mem_permsAux] at hb hb'
      apply hne
      have hcc : c.Perm c' := hb.1.symm.trans hb'.1
      have hs1 := ((mem_combsFrom n 9 0 c).mp hcm).2.1
      have hs2 := ((mem_combsFrom n 9 0 c').mp hcm').2.1
      exact List.eq_of_perm_of_sorted hcc (hs1.imp le_of_lt) (hs2.imp le_of_lt)
  · intro l hlen hnd hbound
    unfold lineups combinationsList permutationsList
    rw [List.mem_flatMap]
    have hperm := List.perm_insertionSort (· ≤ ·) l
    have hsorted := List.sorted_insertionSort (· ≤ ·) l
    have hndc : (l.insertionSort (· ≤ ·)).Nodup := hperm.nodup_iff.mpr hnd
    refine ⟨l.insertionSort (· ≤ ·), ?_, ?_⟩
    · rw [mem_combsFrom]
      refine ⟨hperm.length_eq.trans hlen, ?_, ?_⟩
      · exact (hsorted.and hndc).imp fun h => lt_of_le_of_ne h.1 h.2
      · intro x hx
        exact ⟨Nat.zero_le x, hbound x (hperm.mem_iff.mp hx)⟩
    · rw [mem_permsAux]
      exact ⟨hperm.symm, rfl⟩

theorem lineups_exhaustive_witness :
    [0, 1, 2, 3, 4, 5, 6, 7, 8] ∈ lineups 9 :=
  (lineups_exhaustive 9).2.2 [0, 1, 2, 3, 4, 5, 6, 7, 8] rfl (by decide)
    (by decide)

/-- The prefix of a list actually visited by a stop-on-false callback: all
elements up to and including the first one on which the callback returns
false. -/
def stopList {α : Type} (p : α → Bool) : List α → List α
  | [] => []
  | x :: xs => if p x then x :: stopList p xs else [x]

/-- The trace-and-continue accumulation of a loop body that returns false
to stop (the for-loops in combinations/permutations, main.go lines 41-47
and 65-73): run f on each element in order, concatenating traces, stopping
as soon as f reports false. -/
def foldStop {α β : Type} (f : α → List β × Bool) : List α → List β × Bool
  | [] => ([], true)
  | x :: xs =>
    let tb := f x
    if tb.2 then
      let rest := foldStop f xs
      (tb.1 ++ rest.1, rest.2)
    else (tb.1, false)

/-- The trace of yield invocations of the rec(i, start) recursion of
combinations (main.go lines 32-50) with early termination, together with
the boolean the recursion returns; acc is the prefix of chosen indices. -/
def combCallsAux (n : ℕ) (yield : List ℕ → Bool) :
    ℕ → ℕ → List ℕ → List (List ℕ) × Bool
  | 0, _start, acc => ([acc], yield acc)
  | r + 1, start, acc =>
    foldStop (fun s => combCallsAux n yield r (s + 1) (acc ++ [s]))
      (List.range' start (n + 1 - (r + 1) - start))

/-- The yield invocations of combinations(n, k, yield). -/
def combCalls (n k : ℕ) (yield : List ℕ → Bool) : List (List ℕ) :=
  (combCallsAux n yield k 0 []).1

/-- The trace of yield invocations of the rec(i) recursion of permutations
(main.go lines 55-76) with early termination. -/
def permCallsAux (yield : List ℕ → Bool) (l : List ℕ) (i : ℕ) :
    List (List ℕ) × Bool :=
  if _h : l.length ≤ i then ([l], yield l)
  else
    foldStop (fun j => permCallsAux yield (swapL l i j) (i + 1))
      (List.range' i (l.length - i))
termination_by l.length - i
decreasing_by simp only [swapL, List.length_set]; omega

/-- The yield invocations of permutations(idx, yield). -/
def permCalls (yield : List ℕ → Bool) (l : List ℕ) : List (List ℕ) :=
  (permCallsAux yield l 0).1

/-- The trace of inner-yield invocations of the nested enumeration in
main.go lines 154-165: the combination stage's leaf action runs the
permutation stage (inside which the inner yield's stop signal propagates),
and then the outer combination callback returns true unconditionally
(main.go line 164), so a stop raised by the inner yield never reaches the
combination recursion. -/
def nestedCallsAux (n : ℕ) (yield : List ℕ → Bool) :
    ℕ → ℕ → List ℕ → List (List ℕ) × Bool
  | 0, _start, acc => ((permCallsAux yield acc 0).1, true)
  | r + 1, start, acc =>
    foldStop (fun s => nestedCallsAux n yield r (s + 1) (acc ++ [s]))
      (List.range' start (n + 1 - (r + 1) - start))

/-- The inner-yield invocations of the nested enumeration of k-element
lineups over n players (main.go runs it with k = 9). -/
def nestedCalls (n k : ℕ) (yield : List ℕ → Bool) : List (List ℕ) :=
  (nestedCallsAux n yield k 0 []).1

theorem stopList_of_all_true {α : Type} (p : α → Bool) :
    ∀ l : List α, l.all p = true → stopList p l = l := by
  intro l
  induction l with
  | nil => intro _; rfl
  | cons x xs ih =>
    intro h
    rw [List.all_cons, Bool.and_eq_true] at h
    simp only [stopList, h.1, if_true]
    rw [ih h.2]

theorem stopList_append {α : Type} (p : α → Bool) (xs ys : List α) :
    stopList p (xs ++ ys) =
      if xs.all p then xs ++ stopList p ys else stopList p xs := by
  induction xs with
  | nil => simp
  | cons x xs ih =>
    simp only [List.cons_append, stopList, List.all_cons]
    cases hx : p x with
    | false => simp
    | true =>
      simp only [if_true, Bool.true_and, List.append_eq]
      rw [ih]
      cases hall : xs.all p <;> simp [hall]

theorem foldStop_eq {β : Type} (p : β → Bool) (f : ℕ → List β × Bool)
    (g : ℕ → List β) (xs : List ℕ)
    (hf : ∀ s ∈ xs, f s = (stopList p (g s), (g s).all p)) :
    foldStop f xs = (stopList p (xs.flatMap g), (xs.flatMap g).all p) := by
  induction xs with
  | nil => rfl
  | cons x xs ih =>
    have hx := hf x (List.mem_cons_self x xs)
    have ih2 := ih fun s hs => hf s (List.mem_cons_of_mem x hs)
    simp only [foldStop, hx, List.flatMap_cons, stopList_append, List.all_append]
    cases hall : (g x).all p with
    | false => simp [hall]
    | true => simp [hall, ih2, stopList_of_all_true p (g x) hall]

theorem combCallsAux_eq (n : ℕ) (yield : List ℕ → Bool) :
    ∀ (r start : ℕ) (acc : List ℕ),
      combCallsAux n yield r start acc =
        (stopList yield ((combsFrom n r start).map (acc ++ ·)),
         ((combsFrom n r start).map (acc ++ ·)).all yield) := by
  intro r
  induction r with
  | zero =>
    intro start acc
    simp only [combCallsAux, combsFrom, List.map_cons, List.map_nil,
      List.append_nil]
    cases hy : yield acc <;> simp [stopList, hy]
  | succ r ih =>
    intro start acc
    simp only [combCallsAux]
    have hf : ∀ s ∈ List.range' start (n + 1 - (r + 1) - start),
        combCallsAux n yield r (s + 1) (acc ++ [s]) =
          (stopList yield ((combsFrom n r (s + 1)).map fun c => acc ++ s :: c),
           ((combsFrom n r (s + 1)).map fun c => acc ++ s :: c).all yield) := by
      intro s _
      rw [ih (s + 1) (acc ++ [s])]
      have hfun : ((combsFrom n r (s + 1)).map ((acc ++ [s]) ++ ·)) =
          (combsFrom n r (s + 1)).map fun c => acc ++ s :: c :=
        List.map_congr_left fun c _ => by simp
      rw [hfun]
    rw [foldStop_eq yield
      (fun s => combCallsAux n yield r (s + 1) (acc ++ [s]))
      (fun s => (combsFrom n r (s + 1)).map fun c => acc ++ s :: c)
      (List.range' start (n + 1 - (r + 1) - start)) hf]
    have hEq : (combsFrom n (r + 1) start).map (acc ++ ·) =
        (List.range' start (n + 1 - (r + 1) - start)).flatMap
          fun s => (combsFrom n r (s + 1)).map fun c => acc ++ s :: c := by
      simp only [combsFrom, List.map_flatMap, List.map_map]
      rfl
    rw [hEq]

theorem flatMap_flatMap {α β γ : Type} (l : List α) (f : α → List β)
    (g : β → List γ) :
    (l.flatMap f).flatMap g = l.flatMap fun a => (f a).flatMap g := by
  induction l with
  | nil => rfl
  | cons a l ih => simp only [List.flatMap_cons, List.flatMap_append, ih]

theorem permCallsAux_eq (yield : List ℕ → Bool) :
    ∀ (l : List ℕ) (i : ℕ),
      permCallsAux yield l i =
        (stopList yield (permsAux l i), (permsAux l i).all yield) := by
  have key : ∀ (m : ℕ) (l : List ℕ) (i : ℕ), l.length - i = m →
      permCallsAux yield l i =
        (stopList yield (permsAux l i), (permsAux l i).all yield) := by
    intro m
    induction m with
    | zero =>
      intro l i hm
      unfold permCallsAux permsAux
      rw [dif_pos (by omega), dif_pos (by omega)]
      cases hy : yield l <;> simp [stopList, hy]
    | succ m ih =>
      intro l i hm
      unfold permCallsAux
      conv_rhs => rw [permsAux]
      rw [dif_neg (by omega), dif_neg (by omega)]
      exact foldStop_eq yield
        (fun j => permCallsAux yield (swapL l i j) (i + 1))
        (fun j => permsAux (swapL l i j) (i + 1))
        (List.range' i (l.length - i))
        (fun j _ => ih (swapL l i j) (i + 1) (by rw [swapL_length]; omega))
  intro l i
  exact key (l.length - i) l i rfl

theorem foldStop_true {α β : Type} (g : α → List β) (xs : List α) :
    foldStop (fun a => (g a, true)) xs = (xs.flatMap g, true) := by
  induction xs with
  | nil => rfl
  | cons x xs ih => simp [foldStop, ih]

theorem nestedCallsAux_eq (n : ℕ) (yield : List ℕ → Bool) :
    ∀ (r start : ℕ) (acc : List ℕ),
      nestedCallsAux n yield r start acc =
        (((combsFrom n r start).map (acc ++ ·)).flatMap
           (fun c => stopList yield (permsAux c 0)),
         true) := by
  intro r
  induction r with
  | zero =>
    intro start acc
    simp only [nestedCallsAux, combsFrom, List.map_cons, List.map_nil,
      List.append_nil, List.flatMap_cons, List.flatMap_nil, List.append_nil]
    rw [permCallsAux_eq]
  | succ r ih =>
    intro start acc
    simp only [nestedCallsAux]
    have hf : (fun s => nestedCallsAux n yield r (s + 1) (acc ++ [s])) =
        fun s =>
          (((combsFrom n r (s + 1)).map fun c => acc ++ s :: c).flatMap
             (fun c => stopList yield (permsAux c 0)),
           true) := by
      funext s
      rw [ih (s + 1) (acc ++ [s])]
      have hfun : ((combsFrom n r (s + 1)).map ((acc ++ [s]) ++ ·)) =
          (combsFrom n r (s + 1)).map fun c => acc ++ s :: c :=
        List.map_congr_left fun c _ => by simp
      rw [hfun]
    rw [hf, foldStop_true]
    have h1 : (combsFrom n (r + 1) start).map (acc ++ ·) =
        (List.range' start (n + 1 - (r + 1) - start)).flatMap
          fun s => (combsFrom n r (s + 1)).map fun c => acc ++ s :: c := by
      simp only [combsFrom, List.map_flatMap, List.map_map]
      rfl
    rw [h1, flatMap_flatMap]

theorem stopList_dropLast_true {α : Type} (p : α → Bool) :
    ∀ (l : List α) (x : α), x ∈ (stopList p l).dropLast → p x = true := by
  intro l
  induction l with
  | nil => intro x hx; simp [stopList] at hx
  | cons a l ih =>
    intro x hx
    simp only [stopList] at hx
    cases ha : p a with
    | false =>
      rw [ha] at hx
      simp at hx
    | true =>
      rw [ha] at hx
      simp only [if_true] at hx
      cases hsl : stopList p l with
      | nil =>
        rw [hsl] at hx
        simp at hx
      | cons b t =>
        rw [hsl, List.dropLast_cons₂] at hx
        rcases List.mem_cons.mp hx with rfl | hx'
        · exact ha
        · exact ih x (by rw [hsl]; exact hx')

theorem cx8_perms01 : permsAux [0, 1] 0 = [[0, 1], [1, 0]] := by
  simp [permsAux, swapL, List.range']

theorem cx8_perms02 : permsAux [0, 2] 0 = [[0, 2], [2, 0]] := by
  simp [permsAux, swapL, List.range']

theorem cx8_perms12 : permsAux [1, 2] 0 = [[1, 2], [2, 1]] := by
  simp [permsAux, swapL, List.range']

theorem cx8_combs : combsFrom 3 2 0 = [[0, 1], [0, 2], [1, 2]] := by
  simp [combsFrom, List.range']

theorem cx8_nested :
    nestedCalls 3 2 (fun c => !(c == [0, 1])) =
      [[0, 1], [0, 2], [2, 0], [1, 2], [2, 1]] := by
  unfold nestedCalls
  rw [nestedCallsAux_eq]
  simp [cx8_combs, cx8_perms01, cx8_perms02, cx8_perms12, stopList]

/-- Claim C8 counterexample: in the nested enumeration with three players
and two slots, a yield that returns false (stop) on the very first emitted
lineup [0, 1] still gets called on every later combination's permutations:
the call that returned the stop signal is followed by four further calls,
so the stop does not propagate through the combination level (main.go's
outer combination callback returns true unconditionally, line 164). -/
theorem callbacks_stop_counterexample :
    ¬ (∀ x ∈ (nestedCalls 3 2 fun c => !(c == [0, 1])).dropLast,
        (fun c : List ℕ => !(c == [0, 1])) x = true) := by
  intro h
  have h1 := h [0, 1] (by rw [cx8_nested]; decide)
  simp at h1

/-- Claim C8, amended: within a single recursion the stop signal does
propagate: every call but possibly the last in the combination-stage trace
and in the permutation-stage trace returned true, and within each
combination's permutation batch of the nested enumeration every call but
possibly the last returned true.  But in the nested enumeration of main.go
lines 154-165 the outer combination callback returns true unconditionally
after running the permutation stage, so an inner stop only truncates the
current combination's batch: the overall trace is the concatenation over
all combinations of each batch's stop-prefix (callbacks continue for later
combinations after a stop, as the counterexample shows). -/
theorem callbacks_stop (n k : ℕ) (yield : List ℕ → Bool) (l : List ℕ) :
    (∀ x ∈ (combCalls n k yield).dropLast, yield x = true) ∧
    (∀ x ∈ (permCalls yield l).dropLast, yield x = true) ∧
    nestedCalls n k yield =
      ((combsFrom n k 0).flatMap fun c => stopList yield (permsAux c 0)) ∧
    (∀ c ∈ combsFrom n k 0,
      ∀ x ∈ (stopList yield (permsAux c 0)).dropLast, yield x = true) := by
  refine ⟨?_, ?_, ?_, ?_⟩
  · intro x hx
    unfold combCalls at hx
    rw [combCallsAux_eq] at hx
    exact stopList_dropLast_true yield _ x hx
  · intro x hx
    unfold permCalls at hx
    rw [permCallsAux_eq] at hx
    exact stopList_dropLast_true yield _ x hx
  · unfold nestedCalls
    rw [nestedCallsAux_eq]
    simp
  · intro c _ x hx
    exact stopList_dropLast_true yield _ x hx

theorem callbacks_stop_witness :
    (fun c => !(c == [0, 2])) [0, 1] = true :=
  (callbacks_stop 4 2 (fun c => !(c == [0, 2])) []).1 [0, 1] (by decide)
